import Mathlib

/-! # Directory library source: name codec, revision ordering and cache

A shallow embedding of `new/sch_dir_lib_source.cpp` (KiCad, namespace `SCH`).

Strings are modelled as lists of characters, one `Char` per byte of the C++
`STRING` (`std::string`); a `const char*` into a string is modelled by the
offset of the pointer from the start of that string, and a null pointer by
`none`.  Byte comparison (`memcmp`) is the comparison of character codes.
-/

namespace SCH

/-- The string type of the library: a sequence of bytes. -/
abbrev STRING := List Char

/-- The list type `STRINGS` (a `std::vector` or `std::deque` of `STRING`). -/
abbrev STRINGS := List STRING

/-! ## C library functions used by the source -/

/-- The C function `isdigit` in the "C" locale: true for `0` .. `9`. -/
def isdigit (c : Char) : Bool :=
  decide ('0' ≤ c) && decide (c ≤ '9')

/-- The value of a decimal digit character. -/
def digitVal (c : Char) : Nat :=
  c.toNat - '0'.toNat

/-- The digit loop of `atoi`: accumulate decimal digits until the first byte
that is not a digit. -/
def atoiLoop : Nat → List Char → Nat
  | acc, [] => acc
  | acc, c :: cs => if isdigit c then atoiLoop (acc * 10 + digitVal c) cs else acc

/-- The C function `strtol` in base 10 on a string that starts with a digit:
the number read, and `LONG_MAX`, which is `2 ^ 63 - 1`, when the number does
not fit `long`. -/
def strtol (s : List Char) : Nat :=
  min (atoiLoop 0 s) (2 ^ 63 - 1)

/-- The conversion of a `long` that is not negative to `int`: the low 32 bits,
read in two's complement. -/
def toInt (v : Nat) : Int :=
  (((v + 2 ^ 31) % 2 ^ 32 : Nat) : Int) - 2 ^ 31

/-- The C function `atoi` on a string that starts with a digit (the only way
the source calls it: on the digits that follow `rev`), with the `int` it
returns: the C library defines it as `(int) strtol( nptr, NULL, 10 )`.  A
number below `2 ^ 31` is returned as it is; `4294967297` is returned as `1`,
`2147483648` as `-2147483648`, and a number from `2 ^ 63` on as `-1`. -/
def atoi (s : List Char) : Int :=
  toInt (strtol s)

/-- Test whether `needle` is found at the very start of `hay`. -/
def startsWith : List Char → List Char → Bool
  | _, [] => true
  | [], _ :: _ => false
  | h :: hs, n :: ns => h == n && startsWith hs ns

/-- The C function `strstr`: offset of the first instance of `needle` in
`hay`, or `none` (the null pointer) when there is none. -/
def strstr : List Char → List Char → Option Nat
  | [], needle => if startsWith [] needle then some 0 else none
  | h :: hs, needle =>
    if startsWith (h :: hs) needle then some 0
    else match strstr hs needle with
      | some k => some (k + 1)
      | none => none

/-- The C function `memcmp` on the first `n` bytes of two buffers: negative,
zero or positive as the first differing byte is smaller or greater. -/
def memcmp : List Char → List Char → Nat → Int
  | _, _, 0 => 0
  | [], _, _ + 1 => 0
  | _ :: _, [], _ + 1 => 0
  | x :: xs, y :: ys, n + 1 =>
    if x < y then -1 else if y < x then 1 else memcmp xs ys n

/-! ## Name codec -/

/-- The loop of `strrstr`: `next` is the offset where the next search starts,
`ret` the last instance found so far.  Every round moves `next` at least one
byte forward, so `fuel` rounds with `fuel` greater than the length of the
haystack always reach the end of the loop. -/
def strrstrLoop (haystack needle : List Char) : Nat → Nat → Option Nat → Option Nat
  | 0, _, ret => ret
  | fuel + 1, next, ret =>
    match strstr (haystack.drop next) needle with
    | none => ret
    | some k => strrstrLoop haystack needle fuel (next + k + 1) (some (next + k))

/-- Function `strrstr`: finds the last instance of needle in haystack, if any. -/
def strrstr (haystack needle : List Char) : Option Nat :=
  strrstrLoop haystack needle (haystack.length + 1) 0 none

/-- The backward digit loop of `endsWithRev`,
`while( tail>start && isdigit(*--tail) ) sawDigit = true;`
on the offset `tail`; returns the final `tail` and `sawDigit`. -/
def endsWithRevLoop (s : List Char) : Nat → Bool → Nat × Bool
  | 0, sawDigit => (0, sawDigit)
  | tail + 1, sawDigit =>
    match s[tail]? with
    | some c => if isdigit c then endsWithRevLoop s tail true else (tail, sawDigit)
    | none => (tail, sawDigit)

/-- Function `endsWithRev` on the string segment `s` = `[start, tail)`:
the offset of the final segment `revN[N..]` from `start`, or `none`. -/
def endsWithRev (s : List Char) (separator : Char) : Option Nat :=
  let (tail, sawDigit) := endsWithRevLoop s s.length false
  if sawDigit && decide (3 ≤ tail) then
    let tail := tail - 3
    if s[tail]? == some separator && s[tail + 1]? == some 'r'
        && s[tail + 2]? == some 'e' && s[tail + 3]? == some 'v' then
      some (tail + 1)
    else none
  else none

/-- The extension literal of part files. -/
def dotPart : List Char := ['.', 'p', 'a', 'r', 't']

/-- Method `DIR_LIB_SOURCE::makePartName`: the part name of the directory
entry `aEntry` in category `aCategory`, or `none` when the function returns
false. -/
def makePartName (useVersioning : Bool) (aEntry : List Char) (aCategory : STRING) :
    Option STRING :=
  match strrstr aEntry dotPart with
  | none => none
  | some cp =>
    if 0 < cp then
      -- limit = cp + strlen( cp ), the end of the entry
      let limit := aEntry.length
      if useVersioning then
        match endsWithRev (aEntry.drop (cp + 5)) '.' with
        | some rev =>
          let cat : STRING := if aCategory.length ≠ 0 then aCategory ++ ['/'] else []
          some (cat ++ aEntry.take cp ++ ['/'] ++ aEntry.drop (cp + 5 + rev))
        | none => none
      else
        if cp = limit - 5 then
          let cat : STRING := if aCategory.length ≠ 0 then aCategory ++ ['/'] else []
          some (cat ++ aEntry.take cp)
        else none
    else none

/-- Method `DIR_LIB_SOURCE::makeFileName`, with the member `sourceURI` as
first argument. -/
def makeFileName (sourceURI : STRING) (aPartName : STRING) : STRING :=
  let fileName := sourceURI ++ ['/']
  match endsWithRev aPartName '/' with
  | some rev =>
    let basePartLen := rev - 1
    fileName ++ aPartName.take basePartLen ++ ['.', 'p', 'a', 'r', 't', '.'] ++ aPartName.drop rev
  | none =>
    fileName ++ aPartName ++ dotPart

/-- The category part `[category/]` that `makePartName` puts before the base
name. -/
def categoryPart (aCategory : STRING) : STRING :=
  if aCategory.length ≠ 0 then aCategory ++ ['/'] else []

/-! ## Revision ordering -/

/-- The comparison `BY_REV::operator()`.  A revision pointer `rev` is the
offset found by `endsWithRev`, so that the root of a name is its first
`rootLen` bytes and the digits of its revision start at offset `rev + 3`. -/
def BY_REV (s1 s2 : STRING) : Bool :=
  let rev1 := endsWithRev s1 '/'
  let rev2 := endsWithRev s2 '/'
  let rootLen1 := match rev1 with
    | some r => r
    | none => s1.length
  let rootLen2 := match rev2 with
    | some r => r
    | none => s2.length
  let r := memcmp s1 s2 (min rootLen1 rootLen2)
  if r ≠ 0 then decide (r < 0)
  else if rootLen1 ≠ rootLen2 then decide (rootLen1 < rootLen2)
  else if rev1.isSome ≠ rev2.isSome then !rev1.isSome && rev2.isSome
  else match rev1, rev2 with
    | some r1, some r2 => decide (atoi (s1.drop (r1 + 3)) > atoi (s2.drop (r2 + 3)))
    | _, _ => false

/-- The comparison `operator<` of `std::string`, the order of `NAME_CACHE`:
bytes first, then length. -/
def stringLess (s1 s2 : STRING) : Bool :=
  let r := memcmp s1 s2 (min s1.length s2.length)
  if r ≠ 0 then decide (r < 0) else decide (s1.length < s2.length)

/-! ## The ordered containers

`std::set` is modelled by the list of its elements in iteration order, which
is the ascending order of its comparison. -/

/-- Modelled from the spec: the type `PART_CACHE` of the member `partnames`,
declared in `sch_dir_lib_source.h`: a set of part names ordered by the
revision ordering `BY_REV`, unique. -/
abbrev PART_CACHE := List STRING

/-- Modelled from the spec: the type `NAME_CACHE` of the member `categories`,
declared in `sch_dir_lib_source.h`: a set of names ordered
lexicographically, unique. -/
abbrev NAME_CACHE := List STRING

/-- The operation `std::set::insert`: walk the elements in ascending order up
to the place of `x`; `none` stands for the result `pair.second == false`, an
element equivalent to `x` is already there. -/
def setInsert (comp : STRING → STRING → Bool) (x : STRING) : List STRING → Option (List STRING)
  | [] => some [x]
  | y :: ys =>
    if comp x y then some (x :: y :: ys)
    else if comp y x then
      match setInsert comp x ys with
      | some l => some (y :: l)
      | none => none
    else none

/-- The operation `std::set::lower_bound`: position of the first element that
is not less than `k`. -/
def lower_bound (comp : STRING → STRING → Bool) (k : STRING) : List STRING → Nat
  | [] => 0
  | y :: ys => if comp y k then lower_bound comp k ys + 1 else 0

/-- The operation `std::set::upper_bound`: position of the first element that
is greater than `k`. -/
def upper_bound (comp : STRING → STRING → Bool) (k : STRING) : List STRING → Nat
  | [] => 0
  | y :: ys => if comp k y then 0 else upper_bound comp k ys + 1

/-- The operation `std::set::find`: the element equivalent to `k`, if any. -/
def setFind (comp : STRING → STRING → Bool) (k : STRING) : List STRING → Option STRING
  | [] => none
  | y :: ys => if comp y k then setFind comp k ys else if comp k y then none else some y

/-! ## Directory cache -/

/-- The errors thrown as `IO_ERROR`, one constructor for each message. -/
inductive IO_ERROR where
  /-- Message `aDirectoryPath cannot be empty`. -/
  | emptyPath : IO_ERROR
  /-- Message `<strerror>; scanning directory <curDir>`. -/
  | scanningDirectory (curDir : STRING) : IO_ERROR
  /-- Message `<partName> has already been encountered`. -/
  | alreadyEncountered (partName : STRING) : IO_ERROR
  /-- Message `<partname> not found.` -/
  | notFound (partname : STRING) : IO_ERROR
  /-- Message `<strerror>; cannot open(O_RDONLY) file <aFilename>`. -/
  | cannotOpen (aFilename : STRING) : IO_ERROR
  /-- Message `<aFilename> seems too big.  ( > 1 mbyte )`. -/
  | tooBig (aFilename : STRING) : IO_ERROR
  /-- Message `<strerror>; cannot read file <aFilename>`. -/
  | cannotRead (aFilename : STRING) : IO_ERROR
  deriving DecidableEq, Repr

mutual
/-- What `stat` and `opendir` find at a path of the abstract directory tree. -/
inductive FsNode where
  /-- The call of `stat` fails. -/
  | noStat : FsNode
  /-- A regular file (`S_ISREG`). -/
  | reg : FsNode
  /-- A directory (`S_ISDIR`), whether `opendir` succeeds on it, and the
  entries `readdir` returns, in the order it returns them. -/
  | dir : Bool → FsEntries → FsNode
  /-- Anything else: a device, a socket, a pipe. -/
  | other : FsNode
/-- The entries of a directory: name (`d_name`) and node, in `readdir`
order. -/
inductive FsEntries where
  | nil : FsEntries
  | cons : List Char → FsNode → FsEntries → FsEntries
end

/-- The two caches of a `DIR_LIB_SOURCE`, the members `categories` and
`partnames`. -/
structure Caches where
  categories : NAME_CACHE
  partnames : PART_CACHE
  deriving DecidableEq, Repr

/-- The directory scanned for category `aCategory`: `curDir` in
`cacheOneDir`. -/
def curDirOf (sourceURI aCategory : STRING) : STRING :=
  if aCategory.length ≠ 0 then sourceURI ++ ['/'] ++ aCategory else sourceURI

mutual
/-- Method `DIR_LIB_SOURCE::cacheOneDir`.  The node argument is what is found
at `curDir`: `opendir` succeeds on a directory that can be opened, and fails
on everything else.  The argument `isCategoryName` is the inherited predicate
of that name, which is declared outside this file. -/
def cacheOneDir (isCategoryName : List Char → Bool) (sourceURI : STRING)
    (useVersioning : Bool) (aCategory : STRING) : FsNode → Caches → Except IO_ERROR Caches
  | .dir true entries, st =>
    readdirLoop isCategoryName sourceURI useVersioning aCategory entries st
  | .dir false _, _ => .error (.scanningDirectory (curDirOf sourceURI aCategory))
  | .noStat, _ => .error (.scanningDirectory (curDirOf sourceURI aCategory))
  | .reg, _ => .error (.scanningDirectory (curDirOf sourceURI aCategory))
  | .other, _ => .error (.scanningDirectory (curDirOf sourceURI aCategory))
/-- The loop `while( (entry = readdir( *dir )) != NULL )` of `cacheOneDir`. -/
def readdirLoop (isCategoryName : List Char → Bool) (sourceURI : STRING)
    (useVersioning : Bool) (aCategory : STRING) : FsEntries → Caches → Except IO_ERROR Caches
  | .nil, st => .ok st
  | .cons d_name node rest, st =>
    if d_name = ['.'] ∨ d_name = ['.', '.'] then
      readdirLoop isCategoryName sourceURI useVersioning aCategory rest st
    else
      match node with
      | .noStat => readdirLoop isCategoryName sourceURI useVersioning aCategory rest st
      | .reg =>
        match makePartName useVersioning d_name aCategory with
        | some partName =>
          match setInsert BY_REV partName st.partnames with
          | some l =>
            readdirLoop isCategoryName sourceURI useVersioning aCategory rest
              { st with partnames := l }
          | none => .error (.alreadyEncountered partName)
        | none => readdirLoop isCategoryName sourceURI useVersioning aCategory rest st
      | .dir o sub =>
        if aCategory.length = 0 ∧ isCategoryName d_name = true then
          let cats := (setInsert stringLess d_name st.categories).getD st.categories
          match cacheOneDir isCategoryName sourceURI useVersioning d_name (.dir o sub)
              { st with categories := cats } with
          | .ok st1 => readdirLoop isCategoryName sourceURI useVersioning aCategory rest st1
          | .error e => .error e
        else readdirLoop isCategoryName sourceURI useVersioning aCategory rest st
      | .other => readdirLoop isCategoryName sourceURI useVersioning aCategory rest st
end

/-- Method `DIR_LIB_SOURCE::cache`: clear both caches and scan the root. -/
def cache (isCategoryName : List Char → Bool) (sourceURI : STRING) (useVersioning : Bool)
    (root : FsNode) : Except IO_ERROR Caches :=
  cacheOneDir isCategoryName sourceURI useVersioning [] root ⟨[], []⟩

/-- Method `DIR_LIB_SOURCE::GetCategoricalPartNames` on the member
`partnames`: the elements from `lower_bound( lower )` up to `limit`. -/
def GetCategoricalPartNames (partnames : PART_CACHE) (aCategory : STRING) : STRINGS :=
  if aCategory.length ≠ 0 then
    let lower := aCategory ++ ['/']
    let upper := aCategory ++ [Char.ofNat ('/'.toNat + 1)]
    let limit := upper_bound BY_REV upper partnames
    let it := lower_bound BY_REV lower partnames
    (partnames.drop it).take (limit - it)
  else
    partnames

/-! ## The files a scan visits -/

/-- Names of the regular files a directory lists, `.` and `..` apart. -/
def regularFilesIn : FsEntries → List (List Char)
  | .nil => []
  | .cons d_name node rest =>
    if d_name = ['.'] ∨ d_name = ['.', '.'] then regularFilesIn rest
    else
      match node with
      | .reg => d_name :: regularFilesIn rest
      | .noStat => regularFilesIn rest
      | .dir _ _ => regularFilesIn rest
      | .other => regularFilesIn rest

/-- The regular files at the root and directly inside the first-level
directories that `isCategoryName` accepts, each with its category label, in
the order the scan of the root entries `entries` meets them. -/
def scannedFiles (isCategoryName : List Char → Bool) : FsEntries → List (STRING × List Char)
  | .nil => []
  | .cons d_name node rest =>
    if d_name = ['.'] ∨ d_name = ['.', '.'] then scannedFiles isCategoryName rest
    else
      match node with
      | .reg => ([], d_name) :: scannedFiles isCategoryName rest
      | .dir true sub =>
        if isCategoryName d_name = true then
          (regularFilesIn sub).map (fun n => (d_name, n)) ++ scannedFiles isCategoryName rest
        else scannedFiles isCategoryName rest
      | .dir false _ => scannedFiles isCategoryName rest
      | .noStat => scannedFiles isCategoryName rest
      | .other => scannedFiles isCategoryName rest

/-- The part names `makePartName` gives the scanned files, in scan order. -/
def scannedPartNames (isCategoryName : List Char → Bool) (useVersioning : Bool)
    (entries : FsEntries) : List STRING :=
  (scannedFiles isCategoryName entries).filterMap
    (fun f => makePartName useVersioning f.2 f.1)

/-! ## Reading parts -/

/-- What the operating system gives for a path that `open( O_RDONLY )` can
open: the size `fstat` reports, and the bytes a call of `read` for `nbyte`
bytes transfers, `none` when `read` returns `-1`. -/
structure OpenFile where
  st_size : Nat
  read : Nat → Option (List Char)

/-- The files the repository reads: for each path what `open` finds, `none`
when `open` returns `-1`. -/
abbrev Files := STRING → Option OpenFile

/-- The state a reading method leaves behind: the exception it threw, if any,
the value of the out-parameter it was given, and the member `readBuffer`. -/
structure Outcome (α : Type) where
  thrown : Option IO_ERROR
  aResult : α
  readBuffer : List Char

/-- Method `DIR_LIB_SOURCE::readSExpression`.  The arguments `readBuffer` and
`aResult` are the member and the string `*aResult` before the call. -/
def readSExpression (files : Files) (readBuffer : List Char) (aResult : STRING)
    (aFilename : STRING) : Outcome STRING :=
  match files aFilename with
  | none => ⟨some (.cannotOpen aFilename), aResult, readBuffer⟩
  | some fw =>
    if fw.st_size > 1 * 1024 * 1024 then ⟨some (.tooBig aFilename), aResult, readBuffer⟩
    else
      -- readBuffer.resize( fs.st_size + 1000 ) appends zero bytes
      let resized :=
        if fw.st_size > readBuffer.length then
          readBuffer ++ List.replicate (fw.st_size + 1000 - readBuffer.length) (Char.ofNat 0)
        else readBuffer
      match fw.read fw.st_size with
      | none => ⟨some (.cannotRead aFilename), aResult, resized⟩
      | some bytes =>
        -- read stores the bytes at the start of the buffer and returns their count
        let filled := bytes ++ resized.drop bytes.length
        let count := bytes.length
        if count ≠ fw.st_size then ⟨some (.cannotRead aFilename), aResult, filled⟩
        else ⟨none, filled.take count, filled⟩

/-- Method `DIR_LIB_SOURCE::ReadPart` on the members `sourceURI`, `partnames`
and `readBuffer`. -/
def ReadPart (files : Files) (sourceURI : STRING) (partnames : PART_CACHE)
    (readBuffer : List Char) (aResult : STRING) (aPartName aRev : STRING) : Outcome STRING :=
  let partname := if aRev.length ≠ 0 then aPartName ++ (['/'] ++ aRev) else aPartName
  match setFind BY_REV partname partnames with
  | none => ⟨some (.notFound partname), aResult, readBuffer⟩
  | some _ => readSExpression files readBuffer aResult (makeFileName sourceURI aPartName)

/-- The loop of `DIR_LIB_SOURCE::ReadParts`: push an empty string on
`aResults` and read the next part into it. -/
def ReadPartsLoop (files : Files) (sourceURI : STRING) (partnames : PART_CACHE) :
    List STRING → STRINGS → List Char → Outcome STRINGS
  | [], aResults, readBuffer => ⟨none, aResults, readBuffer⟩
  | n :: ns, aResults, readBuffer =>
    let o := ReadPart files sourceURI partnames readBuffer [] n []
    match o.thrown with
    | some e => ⟨some e, aResults ++ [o.aResult], o.readBuffer⟩
    | none =>
      ReadPartsLoop files sourceURI partnames ns (aResults ++ [o.aResult]) o.readBuffer

/-- Method `DIR_LIB_SOURCE::ReadParts`: clear `aResults`, then read the parts
in order. -/
def ReadParts (files : Files) (sourceURI : STRING) (partnames : PART_CACHE)
    (readBuffer : List Char) (aPartNames : STRINGS) : Outcome STRINGS :=
  ReadPartsLoop files sourceURI partnames aPartNames [] readBuffer

/-! ## The sort key of the revision ordering -/

/-- Length of the root of a part name: `rootLen1` in `BY_REV::operator()`. -/
def rootLen (s : STRING) : Nat :=
  match endsWithRev s '/' with
  | some r => r
  | none => s.length

/-- The root of a part name: the bytes `BY_REV` compares with `memcmp`. -/
def rootOf (s : STRING) : STRING :=
  s.take (rootLen s)

/-- The revision number of a part name as `BY_REV` reads it, the `int` that
`atoi` returns; `none` when the name has no revision. -/
def revNum (s : STRING) : Option Int :=
  match endsWithRev s '/' with
  | some r => some (atoi (s.drop (r + 3)))
  | none => none

/-- The order of revisions: no revision first, then the higher number
first. -/
def revLt : Option Int → Option Int → Prop
  | none, some _ => True
  | some a, some b => b < a
  | _, none => False

/-- The number a string of decimal digits denotes: the digit at distance `i`
from the end counts `10 ^ i` times. -/
def numericValue (N : List Char) : Nat :=
  Nat.ofDigits 10 (N.reverse.map digitVal)

/-- A container whose elements are in ascending order of `BY_REV`. -/
def Ascending (l : List STRING) : Prop :=
  l.Pairwise (fun a b => BY_REV a b = true)

/-- Every entry of a directory listing has a name: `readdir` never returns an
entry with an empty `d_name`. -/
def entryNamesNonEmpty : FsEntries → Bool
  | .nil => true
  | .cons d_name _ rest => !d_name.isEmpty && entryNamesNonEmpty rest

/-! ## Notions the statements use -/

/-- The insertion of part names into the container one after the other, as the
scan does for the files it meets; the first name the container refuses is
reported. -/
def insertAll : List STRING → PART_CACHE → Except IO_ERROR PART_CACHE
  | [], l => .ok l
  | p :: ps, l =>
    match setInsert BY_REV p l with
    | some l1 => insertAll ps l1
    | none => .error (.alreadyEncountered p)

/-- Two part names that denote the same part and revision for the code: the
same string, or the same root followed by revisions that `atoi` reads as the
same `int`, as `a/rev1` and `a/rev01`, or `a/rev1` and `a/rev4294967297`. -/
def sameRevision (s1 s2 : STRING) : Prop :=
  s1 = s2 ∨ ∃ r N1 N2 : List Char, N1 ≠ [] ∧ N2 ≠ [] ∧ (∀ x ∈ N1, isdigit x = true) ∧
    (∀ x ∈ N2, isdigit x = true) ∧ s1 = r ++ "/rev".toList ++ N1 ∧
    s2 = r ++ "/rev".toList ++ N2 ∧ atoi N1 = atoi N2

/-- Inside a first-level directory: the same entries, with nothing known about
what is inside the directories among them. -/
def pruneCategoryDir : FsEntries → FsEntries
  | .nil => .nil
  | .cons d_name node rest =>
    match node with
    | .dir _ _ => .cons d_name (.dir false .nil) (pruneCategoryDir rest)
    | .noStat => .cons d_name .noStat (pruneCategoryDir rest)
    | .reg => .cons d_name .reg (pruneCategoryDir rest)
    | .other => .cons d_name .other (pruneCategoryDir rest)

/-- The part of a tree given by the entries of the root and the entries
directly inside each first-level directory: everything deeper is cut off. -/
def pruneRoot : FsEntries → FsEntries
  | .nil => .nil
  | .cons d_name node rest =>
    match node with
    | .dir o sub => .cons d_name (.dir o (pruneCategoryDir sub)) (pruneRoot rest)
    | .noStat => .cons d_name .noStat (pruneRoot rest)
    | .reg => .cons d_name .reg (pruneRoot rest)
    | .other => .cons d_name .other (pruneRoot rest)

/-- Every first-level directory that the scan opens can be opened: no entry
of the root listing, `.` and `..` apart, is a directory that `isCategoryName`
accepts and `opendir` refuses. -/
def firstLevelDirsOpen (isCategoryName : List Char → Bool) : FsEntries → Bool
  | .nil => true
  | .cons d_name node rest =>
    if d_name = ['.'] ∨ d_name = ['.', '.'] then firstLevelDirsOpen isCategoryName rest
    else
      match node with
      | .dir false _ => !isCategoryName d_name && firstLevelDirsOpen isCategoryName rest
      | .dir true _ => firstLevelDirsOpen isCategoryName rest
      | .noStat => firstLevelDirsOpen isCategoryName rest
      | .reg => firstLevelDirsOpen isCategoryName rest
      | .other => firstLevelDirsOpen isCategoryName rest

/-- A directory listing followed by another: the entries of the first, then
the entries of the second. -/
def FsEntries.append : FsEntries → FsEntries → FsEntries
  | .nil, ys => ys
  | .cons d_name node rest, ys => .cons d_name node (FsEntries.append rest ys)

/-! # Theorems -/

/-! ## Facts about the C library models -/

theorem isdigit_v : isdigit 'v' = false := by decide

/-- Every string splits into a part that is empty or ends in a non-digit, and a
run of digits. -/
theorem digit_suffix_split (s : List Char) :
    ∃ p N, s = p ++ N ∧ (∀ c ∈ N, isdigit c = true) ∧
      (p = [] ∨ ∃ p1 c, p = p1 ++ [c] ∧ isdigit c = false) := by
  induction s using List.reverseRecOn with
  | nil => exact ⟨[], [], rfl, by simp, Or.inl rfl⟩
  | append_singleton s c ih =>
    obtain ⟨p, N, hs, hN, hp⟩ := ih
    by_cases hc : isdigit c = true
    · refine ⟨p, N ++ [c], by simp [hs], ?_, hp⟩
      intro d hd
      rcases List.mem_append.1 hd with h | h
      · exact hN d h
      · simp at h; subst h; exact hc
    · refine ⟨s ++ [c], [], by simp, by simp, Or.inr ⟨s, c, rfl, by simpa using hc⟩⟩

/-- The digit loop walks back over a run of digits. -/
theorem endsWithRevLoop_digits (p : List Char) (N : List Char) (hN : ∀ c ∈ N, isdigit c = true) :
    ∀ (q : List Char) (saw : Bool),
      endsWithRevLoop (p ++ N ++ q) (p.length + N.length) saw
        = endsWithRevLoop (p ++ N ++ q) p.length (saw || !N.isEmpty) := by
  induction N using List.reverseRecOn with
  | nil => intro q saw; simp
  | append_singleton N d ih =>
    intro q saw
    have hd : isdigit d = true := hN d (by simp)
    have hN1 : ∀ c ∈ N, isdigit c = true := fun c hc => hN c (by simp [hc])
    have hlen : p.length + (N ++ [d]).length = (p.length + N.length) + 1 := by simp; omega
    have hget : (p ++ (N ++ [d]) ++ q)[p.length + N.length]? = some d := by
      have : p ++ (N ++ [d]) ++ q = (p ++ N) ++ d :: q := by simp
      rw [this, List.getElem?_append_right (by simp)]
      simp
    rw [hlen, endsWithRevLoop, hget]
    simp only [hd, if_true]
    have h2 := ih hN1 (d :: q) true
    have e : p ++ N ++ d :: q = p ++ (N ++ [d]) ++ q := by simp
    rw [e] at h2
    have h3 : (N ++ [d]).isEmpty = false := by cases N <;> rfl
    rw [h2, h3]
    simp

/-- Result of the digit loop on a string that is a run of digits. -/
theorem endsWithRevLoop_all_digits (N : List Char) (hN : ∀ c ∈ N, isdigit c = true) :
    endsWithRevLoop N N.length false = (0, !N.isEmpty) := by
  have h := endsWithRevLoop_digits [] N hN [] false
  simp only [List.nil_append, List.append_nil, List.length_nil, Nat.zero_add,
    Bool.false_or] at h
  rw [h, endsWithRevLoop]

/-- Result of the digit loop on a string with a non-digit `c` before its final
run of digits: it stops on `c`. -/
theorem endsWithRevLoop_stop (p : List Char) (c : Char) (N : List Char)
    (hc : isdigit c = false) (hN : ∀ c ∈ N, isdigit c = true) :
    endsWithRevLoop (p ++ c :: N) (p ++ c :: N).length false = (p.length, !N.isEmpty) := by
  have h := endsWithRevLoop_digits (p ++ [c]) N hN [] false
  have e : (p ++ [c]) ++ N ++ [] = p ++ c :: N := by simp
  have l : (p ++ [c]).length + N.length = (p ++ c :: N).length := by simp; omega
  rw [e, l] at h
  rw [h]
  have l2 : (p ++ [c]).length = p.length + 1 := by simp
  rw [l2, endsWithRevLoop]
  have g : (p ++ c :: N)[p.length]? = some c := by
    rw [List.getElem?_append_right (Nat.le_refl _)]; simp
  rw [g]
  simp [hc]

/-- Completeness of `endsWithRev`: a string that ends in the separator, `rev`
and a non-empty run of digits has that final segment found. -/
theorem endsWithRev_append (p N : List Char) (sep : Char)
    (hN : ∀ c ∈ N, isdigit c = true) (hne : N ≠ []) :
    endsWithRev (p ++ sep :: 'r' :: 'e' :: 'v' :: N) sep = some (p.length + 1) := by
  have h := endsWithRevLoop_stop (p ++ [sep, 'r', 'e']) 'v' N isdigit_v hN
  have e : (p ++ [sep, 'r', 'e']) ++ 'v' :: N = p ++ sep :: 'r' :: 'e' :: 'v' :: N := by simp
  rw [e] at h
  have hN2 : N.isEmpty = false := by cases N with
    | nil => exact absurd rfl hne
    | cons a l => rfl
  have g0 : (p ++ sep :: 'r' :: 'e' :: 'v' :: N)[p.length]? = some sep := by
    rw [List.getElem?_append_right (Nat.le_refl _)]; simp
  have g1 : (p ++ sep :: 'r' :: 'e' :: 'v' :: N)[p.length + 1]? = some 'r' := by
    rw [List.getElem?_append_right (by omega)]; simp
  have g2 : (p ++ sep :: 'r' :: 'e' :: 'v' :: N)[p.length + 2]? = some 'e' := by
    rw [List.getElem?_append_right (by omega)]; simp
  have g3 : (p ++ sep :: 'r' :: 'e' :: 'v' :: N)[p.length + 3]? = some 'v' := by
    rw [List.getElem?_append_right (by omega)]; simp
  unfold endsWithRev
  simp only [h]
  simp [hN2, g0, g1, g2, g3]

/-- Soundness of `endsWithRev`: when it finds a final segment, the string ends
in the separator, `rev` and a non-empty run of digits, and the offset returned
is that of `rev`. -/
theorem endsWithRev_sound (s : List Char) (sep : Char) (k : Nat)
    (h : endsWithRev s sep = some k) :
    ∃ p N, s = p ++ sep :: 'r' :: 'e' :: 'v' :: N ∧ N ≠ [] ∧
      (∀ c ∈ N, isdigit c = true) ∧ k = p.length + 1 := by
  obtain ⟨p0, N, hs, hN, hp⟩ := digit_suffix_split s
  subst hs
  rcases hp with rfl | ⟨p1, c, rfl, hc⟩
  · -- the whole string is digits
    unfold endsWithRev at h
    simp only [List.nil_append] at h
    simp only [endsWithRevLoop_all_digits N hN] at h
    simp at h
  · have e : p1 ++ [c] ++ N = p1 ++ c :: N := by simp
    rw [e] at h ⊢
    unfold endsWithRev at h
    simp only [endsWithRevLoop_stop p1 c N hc hN] at h
    by_cases hne : N = []
    · subst hne; simp at h
    · have hN2 : N.isEmpty = false := by cases N with
        | nil => exact absurd rfl hne
        | cons a l => rfl
      by_cases h3 : 3 ≤ p1.length
      · -- split the three bytes before `c` off `p1`
        obtain ⟨p2, x, y, z, rfl⟩ : ∃ p2 x y z, p1 = p2 ++ [x, y, z] := by
          refine ⟨p1.take (p1.length - 3), p1[p1.length - 3], p1[p1.length - 2],
            p1[p1.length - 1], ?_⟩
          apply List.ext_getElem
          · simp; omega
          · intro i h1 h2
            by_cases hi : i < p1.length - 3
            · rw [List.getElem_append_left (by simp; omega)]; simp
            · rw [List.getElem_append_right (by simp; omega)]
              simp only [List.length_take]
              have : i - min (p1.length - 3) p1.length = 0 ∨
                  i - min (p1.length - 3) p1.length = 1 ∨
                  i - min (p1.length - 3) p1.length = 2 := by omega
              rcases this with w | w | w
              · simp only [w]; simp; congr 1; omega
              · simp only [w]; simp; congr 1; omega
              · simp only [w]; simp; congr 1; omega
        have l : (p2 ++ [x, y, z]).length - 3 = p2.length := by simp
        have e2 : p2 ++ [x, y, z] ++ c :: N = p2 ++ x :: y :: z :: c :: N := by simp
        have g0 : (p2 ++ x :: y :: z :: c :: N)[p2.length]? = some x := by
          rw [List.getElem?_append_right (Nat.le_refl _)]; simp
        have g1 : (p2 ++ x :: y :: z :: c :: N)[p2.length + 1]? = some y := by
          rw [List.getElem?_append_right (by omega)]; simp
        have g2 : (p2 ++ x :: y :: z :: c :: N)[p2.length + 2]? = some z := by
          rw [List.getElem?_append_right (by omega)]; simp
        have g3 : (p2 ++ x :: y :: z :: c :: N)[p2.length + 3]? = some c := by
          rw [List.getElem?_append_right (by omega)]; simp
        simp only [hN2, h3, l, e2, g0, g1, g2, g3] at h
        simp at h
        obtain ⟨⟨⟨⟨rfl, rfl⟩, rfl⟩, rfl⟩, rfl⟩ := h
        exact ⟨p2, N, by simp, hne, hN, rfl⟩
      · simp [h3] at h

/-! ## Facts about `strstr` and `strrstr` -/

/-- The test `startsWith` is the prefix relation. -/
theorem startsWith_iff (h n : List Char) : startsWith h n = true ↔ ∃ t, h = n ++ t := by
  induction n generalizing h with
  | nil => cases h <;> simp [startsWith]
  | cons c cs ih =>
    cases h with
    | nil => simp [startsWith]
    | cons x xs =>
      simp only [startsWith, Bool.and_eq_true, beq_iff_eq, ih, List.cons_append,
        List.cons.injEq]
      constructor
      · rintro ⟨rfl, t, rfl⟩; exact ⟨t, rfl, rfl⟩
      · rintro ⟨t, rfl, rfl⟩; exact ⟨rfl, t, rfl⟩

/-- No instance of a non-empty needle starts at or after the end of the
haystack. -/
theorem startsWith_drop_of_length_le (h : List Char) (c : Char) (cs : List Char) (j : Nat)
    (hj : h.length ≤ j) : startsWith (h.drop j) (c :: cs) = false := by
  rw [List.drop_of_length_le hj]; rfl

/-- What `strstr` returns: the first offset at which the needle starts. -/
theorem strstr_spec (h n : List Char) :
    (∀ k, strstr h n = some k →
        startsWith (h.drop k) n = true ∧ ∀ j, j < k → startsWith (h.drop j) n = false) ∧
    (strstr h n = none → ∀ j, startsWith (h.drop j) n = false) := by
  induction h with
  | nil =>
    constructor
    · intro k hk
      simp only [strstr] at hk
      split at hk
      · cases hk; exact ⟨by simpa using ‹_›, by intro j hj; omega⟩
      · cases hk
    · intro hk j
      rw [List.drop_nil]
      by_cases hx : startsWith [] n = true
      · simp [strstr, hx] at hk
      · simpa using hx
  | cons x xs ih =>
    obtain ⟨ih1, ih2⟩ := ih
    constructor
    · intro k hk
      simp only [strstr] at hk
      split at hk
      · cases hk; exact ⟨by simpa using ‹_›, by intro j hj; omega⟩
      · rename_i hx
        cases hs : strstr xs n with
        | none => rw [hs] at hk; cases hk
        | some k1 =>
          rw [hs] at hk
          cases hk
          obtain ⟨a, b⟩ := ih1 k1 hs
          refine ⟨by simpa using a, ?_⟩
          intro j hj
          cases j with
          | zero => simpa using hx
          | succ j => simpa using b j (by omega)
    · intro hk j
      simp only [strstr] at hk
      split at hk
      · cases hk
      · rename_i hx
        cases hs : strstr xs n with
        | some k1 => rw [hs] at hk; cases hk
        | none =>
          cases j with
          | zero => simpa using hx
          | succ j => simpa using ih2 hs j

/-- Invariant of the loop of `strrstr`: it returns the last instance at or
after `next`, or `ret` when there is none. -/
theorem strrstrLoop_spec (h : List Char) (c : Char) (cs : List Char) :
    ∀ (fuel next : Nat) (ret : Option Nat), h.length < fuel + next →
      (∃ j, strrstrLoop h (c :: cs) fuel next ret = some j ∧ next ≤ j ∧
          startsWith (h.drop j) (c :: cs) = true ∧
          ∀ i, j < i → startsWith (h.drop i) (c :: cs) = false) ∨
      (strrstrLoop h (c :: cs) fuel next ret = ret ∧
          ∀ j, next ≤ j → startsWith (h.drop j) (c :: cs) = false) := by
  intro fuel
  induction fuel with
  | zero =>
    intro next ret hlt
    right
    exact ⟨rfl, fun j hj => startsWith_drop_of_length_le h c cs j (by omega)⟩
  | succ fuel ih =>
    intro next ret hlt
    obtain ⟨s1, s2⟩ := strstr_spec (h.drop next) (c :: cs)
    cases hs : strstr (h.drop next) (c :: cs) with
    | none =>
      right
      refine ⟨by simp [strrstrLoop, hs], ?_⟩
      intro j hj
      have := s2 hs (j - next)
      rw [List.drop_drop] at this
      rwa [show next + (j - next) = j by omega] at this
    | some k =>
      obtain ⟨a, b⟩ := s1 k hs
      rw [List.drop_drop] at a
      have step : strrstrLoop h (c :: cs) (fuel + 1) next ret
          = strrstrLoop h (c :: cs) fuel (next + k + 1) (some (next + k)) := by
        simp [strrstrLoop, hs]
      rw [step]
      rcases ih (next + k + 1) (some (next + k)) (by omega) with ⟨j, e, hj, o, l⟩ | ⟨e, l⟩
      · left; exact ⟨j, e, by omega, o, l⟩
      · left
        refine ⟨next + k, e, by omega, a, ?_⟩
        intro i hi
        exact l i (by omega)

/-- Function `strrstr` returns the last instance of a non-empty needle. -/
theorem strrstr_some (h : List Char) (c : Char) (cs : List Char) (k : Nat)
    (hk : strrstr h (c :: cs) = some k) :
    startsWith (h.drop k) (c :: cs) = true ∧
      ∀ i, k < i → startsWith (h.drop i) (c :: cs) = false := by
  unfold strrstr at hk
  rcases strrstrLoop_spec h c cs (h.length + 1) 0 none (by omega) with ⟨j, e, _, o, l⟩ | ⟨e, _⟩
  · rw [e] at hk; cases hk; exact ⟨o, l⟩
  · rw [e] at hk; cases hk

/-- Function `strrstr` returns null only when the needle does not occur. -/
theorem strrstr_none (h : List Char) (c : Char) (cs : List Char)
    (hk : strrstr h (c :: cs) = none) (j : Nat) :
    startsWith (h.drop j) (c :: cs) = false := by
  unfold strrstr at hk
  rcases strrstrLoop_spec h c cs (h.length + 1) 0 none (by omega) with ⟨i, e, _, _, _⟩ | ⟨_, l⟩
  · rw [e] at hk; cases hk
  · exact l j (Nat.zero_le _)

/-- An instance with no later instance is the one `strrstr` returns. -/
theorem strrstr_last (h : List Char) (c : Char) (cs : List Char) (k : Nat)
    (ho : startsWith (h.drop k) (c :: cs) = true)
    (hl : ∀ i, k < i → startsWith (h.drop i) (c :: cs) = false) :
    strrstr h (c :: cs) = some k := by
  cases hs : strrstr h (c :: cs) with
  | none => rw [strrstr_none h c cs hs k] at ho; cases ho
  | some k1 =>
    obtain ⟨a, b⟩ := strrstr_some h c cs k1 hs
    rcases Nat.lt_trichotomy k k1 with lt | eq | gt
    · rw [hl k1 lt] at a; cases a
    · rw [eq]
    · rw [b k gt] at ho; cases ho

/-! ## Facts about `makePartName` -/

/-- The last `.part` of `b ++ ".part" ++ t` is the one shown, when none starts
later. -/
theorem strrstr_dotPart (b t : List Char)
    (ht : ∀ m, 0 < m → startsWith ((dotPart ++ t).drop m) dotPart = false) :
    strrstr (b ++ dotPart ++ t) dotPart = some b.length := by
  have hb : (b ++ dotPart ++ t).drop b.length = dotPart ++ t := by
    rw [List.append_assoc, List.drop_left]
  apply strrstr_last (b ++ dotPart ++ t) '.' ['p', 'a', 'r', 't'] b.length
  · show startsWith _ dotPart = true
    rw [hb, startsWith_iff]; exact ⟨t, rfl⟩
  · intro i hi
    show startsWith _ dotPart = false
    have : (b ++ dotPart ++ t).drop i = (dotPart ++ t).drop (i - b.length) := by
      rw [show i = b.length + (i - b.length) by omega, ← List.drop_drop, hb]
      congr 1; omega
    rw [this]
    exact ht _ (by omega)

/-- Where the last `.part` is, the entry splits around it. -/
theorem strrstr_dotPart_split (e : List Char) (cp : Nat) (h : strrstr e dotPart = some cp) :
    ∃ t, e = e.take cp ++ dotPart ++ t ∧ e.drop (cp + 5) = t ∧ cp + 5 + t.length = e.length := by
  obtain ⟨a, _⟩ := strrstr_some e '.' ['p', 'a', 'r', 't'] cp h
  obtain ⟨t, ht⟩ := (startsWith_iff _ _).1 a
  have h1 : e = e.take cp ++ (dotPart ++ t) := by
    have := (List.take_append_drop cp e).symm
    rwa [ht] at this
  have hl : (e.drop cp).length = 5 + t.length := by rw [ht]; simp; omega
  rw [List.length_drop] at hl
  refine ⟨t, by rw [List.append_assoc]; exact h1, ?_, by omega⟩
  rw [← List.drop_drop, ht]
  rfl

/-- No `.part` starts inside the final `.part` of an entry, after its first
byte. -/
theorem no_dotPart_in_tail (m : Nat) (hm : 0 < m) :
    startsWith ((dotPart ++ []).drop m) dotPart = false := by
  cases h : startsWith ((dotPart ++ []).drop m) dotPart with
  | false => rfl
  | true =>
    obtain ⟨t, ht⟩ := (startsWith_iff _ _).1 h
    have := congrArg List.length ht
    simp [dotPart] at this
    omega

/-- Without versioning, an entry `b ++ ".part"` with `b` non-empty is named
`[category/]b`. -/
theorem makePartName_false_append (b c : STRING) (hb : b ≠ []) :
    makePartName false (b ++ dotPart) c = some (categoryPart c ++ b) := by
  have h := strrstr_dotPart b [] no_dotPart_in_tail
  rw [List.append_nil] at h
  have hpos : 0 < b.length := List.length_pos.2 hb
  have hl : b.length = (b ++ dotPart).length - 5 := by simp [dotPart]
  unfold makePartName
  rw [h]
  simp only [hpos, if_true, Bool.false_eq_true, if_false]
  rw [if_pos hl]
  simp [categoryPart]

/-- Without versioning, the entries `makePartName` accepts and the names it
gives them. -/
theorem makePartName_false_iff (e c r : STRING) :
    makePartName false e c = some r ↔
      ∃ b, b ≠ [] ∧ e = b ++ dotPart ∧ r = categoryPart c ++ b := by
  constructor
  · intro h
    unfold makePartName at h
    cases hs : strrstr e dotPart with
    | none => rw [hs] at h; cases h
    | some cp =>
      rw [hs] at h
      obtain ⟨t, ht, _, hlen⟩ := strrstr_dotPart_split e cp hs
      by_cases hpos : 0 < cp
      · by_cases hl : cp = e.length - 5
        · simp only [hpos, if_true, Bool.false_eq_true, if_false] at h
          rw [if_pos hl] at h
          have ht0 : t = [] := List.eq_nil_of_length_eq_zero (by omega)
          subst ht0
          rw [List.append_nil] at ht
          refine ⟨e.take cp, ?_, ht, ?_⟩
          · intro hnil
            have := congrArg List.length hnil
            rw [List.length_take, List.length_nil] at this
            omega
          · simp only [Option.some.injEq] at h
            rw [← h]; rfl
        · simp [hpos, hl] at h
      · simp [hpos] at h
  · rintro ⟨b, hb, rfl, rfl⟩
    exact makePartName_false_append b c hb

/-- No `.part` starts inside `.part.revN`, after its first byte. -/
theorem no_dotPart_in_rev (N : List Char) (hN : ∀ c ∈ N, isdigit c = true) (m : Nat)
    (hm : 0 < m) :
    startsWith ((dotPart ++ '.' :: 'r' :: 'e' :: 'v' :: N).drop m) dotPart = false := by
  rcases m with _ | _ | _ | _ | _ | _ | _ | _ | _ | m
  · omega
  · simp [dotPart, startsWith]
  · simp [dotPart, startsWith]
  · simp [dotPart, startsWith]
  · simp [dotPart, startsWith]
  · simp [dotPart, startsWith]
  · simp [dotPart, startsWith]
  · simp [dotPart, startsWith]
  · simp [dotPart, startsWith]
  · have e : (dotPart ++ '.' :: 'r' :: 'e' :: 'v' :: N).drop (m + 1 + 1 + 1 + 1 + 1 + 1 + 1 + 1 + 1)
        = N.drop m := by simp [dotPart]
    rw [e]
    cases h : startsWith (N.drop m) dotPart with
    | false => rfl
    | true =>
      obtain ⟨t, ht⟩ := (startsWith_iff _ _).1 h
      have hmem : '.' ∈ N.drop m := by rw [ht]; simp [dotPart]
      have := hN '.' (List.mem_of_mem_drop hmem)
      exact absurd this (by decide)

/-- With versioning, an entry `b.part.revN` with `b` non-empty is named
`[category/]b/revN`. -/
theorem makePartName_true_append (b c N : STRING) (hb : b ≠ []) (hne : N ≠ [])
    (hN : ∀ x ∈ N, isdigit x = true) :
    makePartName true (b ++ dotPart ++ '.' :: 'r' :: 'e' :: 'v' :: N) c
      = some (categoryPart c ++ b ++ '/' :: 'r' :: 'e' :: 'v' :: N) := by
  have h := strrstr_dotPart b ('.' :: 'r' :: 'e' :: 'v' :: N) (no_dotPart_in_rev N hN)
  have hpos : 0 < b.length := List.length_pos.2 hb
  have hd : (b ++ dotPart ++ '.' :: 'r' :: 'e' :: 'v' :: N).drop (b.length + 5)
      = '.' :: 'r' :: 'e' :: 'v' :: N := by
    have : (b ++ dotPart).length = b.length + 5 := by simp [dotPart]
    rw [← this, List.drop_left]
  have hd2 : (b ++ dotPart ++ '.' :: 'r' :: 'e' :: 'v' :: N).drop (b.length + 5 + (0 + 1))
      = 'r' :: 'e' :: 'v' :: N := by
    rw [← List.drop_drop, hd]; rfl
  have hr := endsWithRev_append [] N '.' hN hne
  simp only [List.nil_append, List.length_nil] at hr
  unfold makePartName
  rw [h]
  simp only [hpos, if_true, hd, hr, hd2]
  simp [categoryPart]

/-! ## Facts about `makeFileName` -/

/-- The file name of a part name that ends in `/revN`. -/
theorem makeFileName_rev (root q N : STRING) (hne : N ≠ [])
    (hN : ∀ x ∈ N, isdigit x = true) :
    makeFileName root (q ++ '/' :: 'r' :: 'e' :: 'v' :: N)
      = root ++ ['/'] ++ q ++ dotPart ++ '.' :: 'r' :: 'e' :: 'v' :: N := by
  have hr := endsWithRev_append q N '/' hN hne
  have h1 : (q ++ '/' :: 'r' :: 'e' :: 'v' :: N).take q.length = q := List.take_left _ _
  have h2 : (q ++ '/' :: 'r' :: 'e' :: 'v' :: N).drop (q.length + 1) = 'r' :: 'e' :: 'v' :: N := by
    rw [← List.drop_drop, List.drop_left]; rfl
  unfold makeFileName
  rw [hr]
  simp only [Nat.add_sub_cancel, h1, h2]
  simp [dotPart]

/-- The file name of a part name without a revision. -/
theorem makeFileName_plain (root p : STRING) (h : endsWithRev p '/' = none) :
    makeFileName root p = root ++ ['/'] ++ p ++ dotPart := by
  unfold makeFileName
  rw [h]

/-- A string has one split only into a part ending in a non-digit and a run
of digits. -/
theorem digit_suffix_unique (N1 : List Char) :
    ∀ (N2 a b : List Char) (c d : Char), isdigit c = false → isdigit d = false →
      (∀ x ∈ N1, isdigit x = true) → (∀ x ∈ N2, isdigit x = true) →
      a ++ c :: N1 = b ++ d :: N2 → a = b ∧ c = d ∧ N1 = N2 := by
  induction N1 using List.reverseRecOn with
  | nil =>
    intro N2 a b c d hc hd _ h2 h
    rcases List.eq_nil_or_concat N2 with rfl | ⟨N, x, rfl⟩
    · obtain ⟨e1, e2⟩ := List.append_inj' h rfl
      exact ⟨e1, by simpa using e2, rfl⟩
    · have h' : a ++ [c] = (b ++ d :: N) ++ [x] := by simpa using h
      obtain ⟨_, e2⟩ := List.append_inj' h' rfl
      have hx : isdigit x = true := h2 x (by simp)
      simp only [List.cons.injEq, and_true] at e2
      rw [← e2, hc] at hx; cases hx
  | append_singleton N y ih =>
    intro N2 a b c d hc hd h1 h2 h
    have hy : isdigit y = true := h1 y (by simp)
    rcases List.eq_nil_or_concat N2 with rfl | ⟨M, x, rfl⟩
    · have h' : (a ++ c :: N) ++ [y] = b ++ [d] := by simpa using h
      obtain ⟨_, e2⟩ := List.append_inj' h' rfl
      simp only [List.cons.injEq, and_true] at e2
      rw [e2, hd] at hy; cases hy
    · have h' : (a ++ c :: N) ++ [y] = (b ++ d :: M) ++ [x] := by simpa using h
      obtain ⟨e1, e2⟩ := List.append_inj' h' rfl
      simp only [List.cons.injEq, and_true] at e2
      obtain ⟨ea, ec, eN⟩ := ih M a b c d hc hd (fun z hz => h1 z (by simp [hz]))
        (fun z hz => h2 z (by simp [hz])) e1
      exact ⟨ea, ec, by rw [eN, e2, List.concat_eq_append]⟩

/-! ## Facts about `BY_REV` -/

theorem rootLen_le (s : STRING) : rootLen s ≤ s.length := by
  unfold rootLen
  cases h : endsWithRev s '/' with
  | none => exact Nat.le_refl _
  | some k =>
    obtain ⟨p, N, rfl, _, _, rfl⟩ := endsWithRev_sound s '/' k h
    simp

/-- The call `memcmp` on the common length of two roots followed by the
comparison of the lengths is the lexicographic order of the roots. -/
theorem memcmp_lex (a : List Char) :
    ∀ (b : List Char) (la lb : Nat), la ≤ a.length → lb ≤ b.length →
      ((memcmp a b (min la lb) < 0 ∨ (memcmp a b (min la lb) = 0 ∧ la < lb))
        ↔ List.Lex (· < ·) (a.take la) (b.take lb)) := by
  induction a with
  | nil =>
    intro b la lb ha hb
    have : la = 0 := by simpa using ha
    subst this
    cases lb with
    | zero => simp [memcmp]
    | succ m =>
      cases b with
      | nil => simp at hb
      | cons y ys => simp [memcmp, List.Lex.nil]
  | cons x xs ih =>
    intro b la lb ha hb
    cases la with
    | zero =>
      cases lb with
      | zero => simp [memcmp]
      | succ m =>
        cases b with
        | nil => simp at hb
        | cons y ys => simp [memcmp, List.Lex.nil]
    | succ n =>
      cases lb with
      | zero => simp [memcmp]
      | succ m =>
        cases b with
        | nil => simp at hb
        | cons y ys =>
          have hmin : min (n + 1) (m + 1) = min n m + 1 := by omega
          rw [hmin]
          simp only [List.take_succ_cons, memcmp]
          rcases lt_trichotomy x y with h | h | h
          · simp [h, List.Lex.rel h]
          · subst h
            simp only [lt_self_iff_false, if_false, List.Lex.cons_iff]
            rw [← ih ys n m (by simpa using ha) (by simpa using hb)]
            simp
          · have h' : ¬ x < y := not_lt_of_gt h
            simp only [h', if_false, h, if_true]
            constructor
            · rintro (c | ⟨c, _⟩) <;> simp at c
            · intro c
              cases c with
              | cons c1 => exact absurd h (lt_irrefl _)
              | rel c1 => exact absurd c1 h'

/-- The call `memcmp` returns zero on roots of the same length when the roots
are equal, and only then. -/
theorem memcmp_eq (a : List Char) :
    ∀ (b : List Char) (la lb : Nat), la ≤ a.length → lb ≤ b.length →
      ((memcmp a b (min la lb) = 0 ∧ la = lb) ↔ a.take la = b.take lb) := by
  induction a with
  | nil =>
    intro b la lb ha hb
    have : la = 0 := by simpa using ha
    subst this
    cases lb with
    | zero => simp [memcmp]
    | succ m =>
      cases b with
      | nil => simp at hb
      | cons y ys => simp [memcmp]
  | cons x xs ih =>
    intro b la lb ha hb
    cases la with
    | zero =>
      cases lb with
      | zero => simp [memcmp]
      | succ m =>
        cases b with
        | nil => simp at hb
        | cons y ys => simp [memcmp]
    | succ n =>
      cases lb with
      | zero => simp [memcmp]
      | succ m =>
        cases b with
        | nil => simp at hb
        | cons y ys =>
          have hmin : min (n + 1) (m + 1) = min n m + 1 := by omega
          rw [hmin]
          simp only [List.take_succ_cons, memcmp, List.cons.injEq]
          rcases lt_trichotomy x y with h | h | h
          · simp [h, ne_of_lt h]
          · subst h
            simp only [lt_self_iff_false, if_false, true_and]
            rw [← ih ys n m (by simpa using ha) (by simpa using hb)]
            simp
          · have h' : ¬ x < y := not_lt_of_gt h
            simp [h', h, ne_of_gt h]

theorem BY_REV_iff (s1 s2 : STRING) :
    BY_REV s1 s2 = true ↔
      List.Lex (· < ·) (rootOf s1) (rootOf s2) ∨
        (rootOf s1 = rootOf s2 ∧ revLt (revNum s1) (revNum s2)) := by
  have hl := memcmp_lex s1 s2 (rootLen s1) (rootLen s2) (rootLen_le s1) (rootLen_le s2)
  have he := memcmp_eq s1 s2 (rootLen s1) (rootLen s2) (rootLen_le s1) (rootLen_le s2)
  unfold rootOf
  rw [← hl, ← he]
  generalize hr : memcmp s1 s2 (min (rootLen s1) (rootLen s2)) = r
  have hB : BY_REV s1 s2 =
      (if r ≠ 0 then decide (r < 0)
       else if rootLen s1 ≠ rootLen s2 then decide (rootLen s1 < rootLen s2)
       else if (endsWithRev s1 '/').isSome ≠ (endsWithRev s2 '/').isSome then
         !(endsWithRev s1 '/').isSome && (endsWithRev s2 '/').isSome
       else match endsWithRev s1 '/', endsWithRev s2 '/' with
         | some r1, some r2 => decide (atoi (s1.drop (r1 + 3)) > atoi (s2.drop (r2 + 3)))
         | _, _ => false) := by
    rw [← hr]; rfl
  rw [hB]
  unfold revNum
  by_cases h0 : r = 0
  · by_cases h1 : rootLen s1 = rootLen s2
    · cases e1 : endsWithRev s1 '/' <;> cases e2 : endsWithRev s2 '/' <;>
        simp [h0, h1, revLt]
    · simp [h0, h1]
  · simp [h0]
theorem lex_irrefl (a : List Char) : ¬ List.Lex (· < ·) a a :=
  irrefl_of (List.Lex (· < ·)) a

theorem lex_trans {a b c : List Char} (h1 : List.Lex (· < ·) a b)
    (h2 : List.Lex (· < ·) b c) : List.Lex (· < ·) a c :=
  trans_of (List.Lex (· < ·)) h1 h2

theorem lex_trichotomy (a b : List Char) :
    List.Lex (· < ·) a b ∨ a = b ∨ List.Lex (· < ·) b a :=
  trichotomous_of (List.Lex (· < ·)) a b

theorem revLt_irrefl (v : Option Int) : ¬ revLt v v := by
  cases v <;> simp [revLt]

theorem revLt_trans {a b c : Option Int} (h1 : revLt a b) (h2 : revLt b c) : revLt a c := by
  cases a <;> cases b <;> cases c <;> simp [revLt] at *
  omega

theorem revLt_connected {a b : Option Int} (h1 : ¬ revLt a b) (h2 : ¬ revLt b a) : a = b := by
  cases a <;> cases b <;> simp [revLt] at *
  omega

/-- The comparison is irreflexive. -/
theorem BY_REV_irrefl (a : STRING) : BY_REV a a = false := by
  cases h : BY_REV a a with
  | false => rfl
  | true =>
    rcases (BY_REV_iff a a).1 h with h1 | ⟨_, h1⟩
    · exact absurd h1 (lex_irrefl _)
    · exact absurd h1 (revLt_irrefl _)

/-- The comparison is transitive. -/
theorem BY_REV_trans {a b c : STRING} (h1 : BY_REV a b = true) (h2 : BY_REV b c = true) :
    BY_REV a c = true := by
  rw [BY_REV_iff] at *
  rcases h1 with h1 | ⟨e1, h1⟩ <;> rcases h2 with h2 | ⟨e2, h2⟩
  · exact Or.inl (lex_trans h1 h2)
  · exact Or.inl (e2 ▸ h1)
  · exact Or.inl (e1 ▸ h2)
  · exact Or.inr ⟨e1.trans e2, revLt_trans h1 h2⟩

/-- Two names are equivalent for the comparison when they have the same root and
the same revision number, and only then. -/
theorem BY_REV_equiv_iff (a b : STRING) :
    (BY_REV a b = false ∧ BY_REV b a = false) ↔ (rootOf a = rootOf b ∧ revNum a = revNum b) := by
  have ha := BY_REV_iff a b
  have hb := BY_REV_iff b a
  constructor
  · rintro ⟨h1, h2⟩
    rw [h1] at ha; rw [h2] at hb
    simp only [Bool.false_eq_true, false_iff, not_or, not_and] at ha hb
    rcases lex_trichotomy (rootOf a) (rootOf b) with h | h | h
    · exact absurd h ha.1
    · exact ⟨h, revLt_connected (ha.2 h) (hb.2 h.symm)⟩
    · exact absurd h hb.1
  · rintro ⟨h1, h2⟩
    constructor
    · cases h : BY_REV a b with
      | false => rfl
      | true =>
        rcases ha.1 h with c | ⟨_, c⟩
        · rw [h1] at c; exact absurd c (lex_irrefl _)
        · rw [h2] at c; exact absurd c (revLt_irrefl _)
    · cases h : BY_REV b a with
      | false => rfl
      | true =>
        rcases hb.1 h with c | ⟨_, c⟩
        · rw [h1] at c; exact absurd c (lex_irrefl _)
        · rw [h2] at c; exact absurd c (revLt_irrefl _)

/-- The comparison is asymmetric. -/
theorem BY_REV_asymm {a b : STRING} (h : BY_REV a b = true) : BY_REV b a = false := by
  cases h2 : BY_REV b a with
  | false => rfl
  | true =>
    have := BY_REV_trans h h2
    rw [BY_REV_irrefl] at this; cases this

/-! ## The revision of a name that ends in `/revN` -/

theorem atoiLoop_digits (N : List Char) (hN : ∀ x ∈ N, isdigit x = true) :
    ∀ acc, atoiLoop acc N = acc * 10 ^ N.length + numericValue N := by
  induction N with
  | nil => intro acc; simp [atoiLoop, numericValue]
  | cons c cs ih =>
    intro acc
    have hc : isdigit c = true := hN c (by simp)
    have ih' := ih (fun x hx => hN x (by simp [hx])) (acc * 10 + digitVal c)
    simp only [atoiLoop, hc, if_true, ih']
    simp only [numericValue, List.reverse_cons, List.map_append, List.map_cons, List.map_nil,
      Nat.ofDigits_append, Nat.ofDigits_singleton, List.length_map, List.length_reverse,
      List.length_cons]
    ring

/-- On a string of digits `atoi` returns the number the digits denote, cut to
`LONG_MAX` and then to the 32 bits of an `int`. -/
theorem atoi_digits (N : List Char) (hN : ∀ x ∈ N, isdigit x = true) :
    atoi N = toInt (min (numericValue N) (2 ^ 63 - 1)) := by
  unfold atoi strtol
  rw [atoiLoop_digits N hN 0]
  simp

/-- On a string of digits that denotes a number below `2 ^ 31`, `atoi` returns
that number. -/
theorem atoi_small (N : List Char) (hN : ∀ x ∈ N, isdigit x = true)
    (hsmall : numericValue N < 2 ^ 31) : atoi N = (numericValue N : Int) := by
  rw [atoi_digits N hN]
  have h1 : min (numericValue N) (2 ^ 63 - 1) = numericValue N := by omega
  rw [h1]
  unfold toInt
  have h2 : (numericValue N + 2 ^ 31) % 2 ^ 32 = numericValue N + 2 ^ 31 := by omega
  rw [h2]
  push_cast
  omega

theorem rootLen_rev (q N : STRING) (hne : N ≠ []) (hN : ∀ x ∈ N, isdigit x = true) :
    rootLen (q ++ '/' :: 'r' :: 'e' :: 'v' :: N) = q.length + 1 := by
  unfold rootLen
  rw [endsWithRev_append q N '/' hN hne]

theorem rootOf_rev (q N : STRING) (hne : N ≠ []) (hN : ∀ x ∈ N, isdigit x = true) :
    rootOf (q ++ '/' :: 'r' :: 'e' :: 'v' :: N) = q ++ ['/'] := by
  unfold rootOf
  rw [rootLen_rev q N hne hN]
  have : q ++ '/' :: 'r' :: 'e' :: 'v' :: N = (q ++ ['/']) ++ 'r' :: 'e' :: 'v' :: N := by simp
  rw [this]
  have l : q.length + 1 = (q ++ ['/']).length := by simp
  rw [l, List.take_left]

theorem revNum_rev (q N : STRING) (hne : N ≠ []) (hN : ∀ x ∈ N, isdigit x = true) :
    revNum (q ++ '/' :: 'r' :: 'e' :: 'v' :: N) = some (atoi N) := by
  unfold revNum
  rw [endsWithRev_append q N '/' hN hne]
  have : q ++ '/' :: 'r' :: 'e' :: 'v' :: N = (q ++ ['/', 'r', 'e', 'v']) ++ N := by simp
  have l : q.length + 1 + 3 = (q ++ ['/', 'r', 'e', 'v']).length := by simp
  simp only
  rw [this, l, List.drop_left]

/-- A string is before each of its proper extensions in the lexicographic
order. -/
theorem lex_append_cons (p : List Char) (x : Char) (t : List Char) :
    List.Lex (· < ·) p (p ++ x :: t) := by
  induction p with
  | nil => exact List.Lex.nil
  | cons a p ih => exact List.Lex.cons ih

/-- The root of a name is before the name followed by `/`. -/
theorem lex_rootOf_slash (b : STRING) : List.Lex (· < ·) (rootOf b) (b ++ ['/']) := by
  unfold rootOf
  have h : b ++ ['/'] = b.take (rootLen b) ++ (b.drop (rootLen b) ++ ['/']) := by
    rw [← List.append_assoc, List.take_append_drop]
  cases hd : b.drop (rootLen b) with
  | nil =>
    rw [hd] at h
    rw [h]
    exact lex_append_cons _ _ _
  | cons y ys =>
    rw [hd] at h
    rw [h]
    exact lex_append_cons _ _ _

/-- The translation of part names to file names is injective. -/
theorem makeFileName_inj (root p1 p2 : STRING)
    (h : makeFileName root p1 = makeFileName root p2) : p1 = p2 := by
  cases h1 : endsWithRev p1 '/' with
  | none =>
    rw [makeFileName_plain root p1 h1] at h
    cases h2 : endsWithRev p2 '/' with
    | none =>
      rw [makeFileName_plain root p2 h2] at h
      simp only [List.append_assoc, List.append_cancel_left_eq] at h
      exact List.append_cancel_right h
    | some k2 =>
      obtain ⟨q2, N2, rfl, hne2, hN2, _⟩ := endsWithRev_sound p2 '/' k2 h2
      rw [makeFileName_rev root q2 N2 hne2 hN2] at h
      simp only [List.append_assoc, List.append_cancel_left_eq] at h
      rcases List.eq_nil_or_concat N2 with rfl | ⟨M, x, rfl⟩
      · exact absurd rfl hne2
      · have hx : isdigit x = true := hN2 x (by simp)
        have h' : (p1 ++ ['.', 'p', 'a', 'r']) ++ ['t']
            = (q2 ++ dotPart ++ '.' :: 'r' :: 'e' :: 'v' :: M) ++ [x] := by
          simpa [dotPart] using h
        obtain ⟨_, e⟩ := List.append_inj' h' rfl
        simp only [List.cons.injEq, and_true] at e
        rw [← e] at hx
        exact absurd hx (by decide)
  | some k1 =>
    obtain ⟨q1, N1, rfl, hne1, hN1, _⟩ := endsWithRev_sound p1 '/' k1 h1
    rw [makeFileName_rev root q1 N1 hne1 hN1] at h
    cases h2 : endsWithRev p2 '/' with
    | none =>
      rw [makeFileName_plain root p2 h2] at h
      simp only [List.append_assoc, List.append_cancel_left_eq] at h
      rcases List.eq_nil_or_concat N1 with rfl | ⟨M, x, rfl⟩
      · exact absurd rfl hne1
      · have hx : isdigit x = true := hN1 x (by simp)
        have h' : (q1 ++ dotPart ++ '.' :: 'r' :: 'e' :: 'v' :: M) ++ [x]
            = (p2 ++ ['.', 'p', 'a', 'r']) ++ ['t'] := by
          simpa [dotPart] using h
        obtain ⟨_, e⟩ := List.append_inj' h' rfl
        simp only [List.cons.injEq, and_true] at e
        rw [e] at hx
        exact absurd hx (by decide)
    | some k2 =>
      obtain ⟨q2, N2, rfl, hne2, hN2, _⟩ := endsWithRev_sound p2 '/' k2 h2
      rw [makeFileName_rev root q2 N2 hne2 hN2] at h
      simp only [List.append_assoc, List.append_cancel_left_eq] at h
      have h' : (q1 ++ dotPart ++ ['.', 'r', 'e']) ++ 'v' :: N1
          = (q2 ++ dotPart ++ ['.', 'r', 'e']) ++ 'v' :: N2 := by
        simpa using h
      obtain ⟨ea, _, eN⟩ := digit_suffix_unique N1 N2 _ _ 'v' 'v' isdigit_v isdigit_v hN1 hN2 h'
      have eq : q1 = q2 := List.append_cancel_right (List.append_cancel_right ea)
      rw [eq, eN]

/-! ## The claims on the name codec and the revision ordering -/

/-- C1 (the code departs from the claim): with versioning enabled the entry
`a.partX.rev1` is accepted and named `a/rev1`, and the file name built from
that part name is `lib/a.part.rev1`, which is not the path `lib/a.partX.rev1`
of the entry: the round trip from entry to part name to file name does not
return the file the name was classified from. -/
theorem roundtrip_entry_fails_with_infix :
    makePartName true "a.partX.rev1".toList [] = some "a/rev1".toList ∧
      makeFileName "lib".toList "a/rev1".toList = "lib/a.part.rev1".toList ∧
      makeFileName "lib".toList "a/rev1".toList
        ≠ "lib".toList ++ "/".toList ++ "a.partX.rev1".toList := by
  decide

/-- C2: for every root, category `c` (possibly empty), non-empty base name `b`
and non-empty string `N` of decimal digits, `makeFileName` of the part name
`[c/]b/revN` is `root/[c/]b.part.revN`, and `makePartName` with versioning
enabled names the entry `b.part.revN` of category `c` as `[c/]b/revN`, whatever
`b` contains. -/
theorem roundtrip_partname_versioned (root c b N : STRING) (hb : b ≠ []) (hne : N ≠ [])
    (hN : ∀ x ∈ N, isdigit x = true) :
    makeFileName root (categoryPart c ++ b ++ "/rev".toList ++ N)
        = root ++ "/".toList ++ categoryPart c ++ b ++ ".part.rev".toList ++ N ∧
      makePartName true (b ++ ".part.rev".toList ++ N) c
        = some (categoryPart c ++ b ++ "/rev".toList ++ N) := by
  constructor
  · have h := makeFileName_rev root (categoryPart c ++ b) N hne hN
    simpa [dotPart] using h
  · have h := makePartName_true_append b c N hb hne hN
    simpa [dotPart] using h

/-- Witness of C2: root `lib`, category `Cat`, base name `x.part.rev9` and
revision digits `12`. -/
theorem roundtrip_partname_versioned_witness :
    makeFileName "lib".toList (categoryPart "Cat".toList ++ "x.part.rev9".toList
          ++ "/rev".toList ++ "12".toList)
        = "lib".toList ++ "/".toList ++ categoryPart "Cat".toList ++ "x.part.rev9".toList
          ++ ".part.rev".toList ++ "12".toList ∧
      makePartName true ("x.part.rev9".toList ++ ".part.rev".toList ++ "12".toList)
          "Cat".toList
        = some (categoryPart "Cat".toList ++ "x.part.rev9".toList ++ "/rev".toList
          ++ "12".toList) :=
  roundtrip_partname_versioned "lib".toList "Cat".toList "x.part.rev9".toList "12".toList
    (by decide) (by decide) (by decide)

/-- C3: for a fixed root, `makeFileName` is injective over all strings: two
different part names, with or without a `/revN` suffix, never have the same
file name. -/
theorem makeFileName_injective (root : STRING) : Function.Injective (makeFileName root) :=
  fun p1 p2 h => makeFileName_inj root p1 p2 h

/-- C4: `BY_REV` is a strict weak ordering on all strings: irreflexive,
transitive, and with a transitive incomparability relation. -/
theorem BY_REV_strict_weak_ordering :
    (∀ a, BY_REV a a = false) ∧
      (∀ a b c, BY_REV a b = true → BY_REV b c = true → BY_REV a c = true) ∧
      (∀ a b c, (BY_REV a b = false ∧ BY_REV b a = false) →
        (BY_REV b c = false ∧ BY_REV c b = false) →
        (BY_REV a c = false ∧ BY_REV c a = false)) := by
  refine ⟨BY_REV_irrefl, fun a b c => BY_REV_trans, ?_⟩
  intro a b c h1 h2
  rw [BY_REV_equiv_iff] at *
  exact ⟨h1.1.trans h2.1, h1.2.trans h2.2⟩

/-- C5, as stated, fails: the number `4294967297` is greater than the number
`1`, and yet `r/rev4294967297` is not before `r/rev1` in `BY_REV`, because
`atoi` returns the `int` 1 for both revisions. -/
theorem BY_REV_revisions_overflow :
    numericValue "1".toList < numericValue "4294967297".toList ∧
      BY_REV ("r".toList ++ "/rev".toList ++ "4294967297".toList)
        ("r".toList ++ "/rev".toList ++ "1".toList) = false := by
  decide

/-- C5, amended: for every string `r` and non-empty strings of decimal digits
`m` and `n` that denote numbers below `2 ^ 31`, the numbers an `int` holds,
`r/revm` is before `r/revn` in `BY_REV` exactly when the number `m` is greater
than the number `n`. -/
theorem BY_REV_revisions_descending (r m n : STRING) (hm : m ≠ []) (hn : n ≠ [])
    (dm : ∀ x ∈ m, isdigit x = true) (dn : ∀ x ∈ n, isdigit x = true)
    (bm : numericValue m < 2 ^ 31) (bn : numericValue n < 2 ^ 31) :
    BY_REV (r ++ "/rev".toList ++ m) (r ++ "/rev".toList ++ n) = true
      ↔ numericValue n < numericValue m := by
  have e1 : r ++ "/rev".toList ++ m = r ++ '/' :: 'r' :: 'e' :: 'v' :: m := by simp
  have e2 : r ++ "/rev".toList ++ n = r ++ '/' :: 'r' :: 'e' :: 'v' :: n := by simp
  rw [e1, e2, BY_REV_iff, rootOf_rev r m hm dm, rootOf_rev r n hn dn, revNum_rev r m hm dm,
    revNum_rev r n hn dn, atoi_small m dm bm, atoi_small n dn bn]
  constructor
  · rintro (h | ⟨_, h⟩)
    · exact absurd h (lex_irrefl _)
    · exact Int.ofNat_lt.1 h
  · intro h
    exact Or.inr ⟨rfl, Int.ofNat_lt.2 h⟩

/-- Witness of C5: `Cat/a/rev10` is before `Cat/a/rev2`. -/
theorem BY_REV_revisions_descending_witness :
    BY_REV ("Cat/a".toList ++ "/rev".toList ++ "10".toList)
        ("Cat/a".toList ++ "/rev".toList ++ "2".toList) = true
      ↔ numericValue "2".toList < numericValue "10".toList :=
  BY_REV_revisions_descending "Cat/a".toList "10".toList "2".toList (by decide) (by decide)
    (by decide) (by decide) (by decide) (by decide)

/-- C6: for every string `b` and non-empty string of decimal digits `n`, the
name `b` is before `b/revn` in `BY_REV`, and `b/revn` is not before `b`. -/
theorem BY_REV_bare_before_revision (b n : STRING) (hn : n ≠ [])
    (dn : ∀ x ∈ n, isdigit x = true) :
    BY_REV b (b ++ "/rev".toList ++ n) = true ∧ BY_REV (b ++ "/rev".toList ++ n) b = false := by
  have e : b ++ "/rev".toList ++ n = b ++ '/' :: 'r' :: 'e' :: 'v' :: n := by simp
  have h : BY_REV b (b ++ "/rev".toList ++ n) = true := by
    rw [e, BY_REV_iff, rootOf_rev b n hn dn]
    exact Or.inl (lex_rootOf_slash b)
  exact ⟨h, BY_REV_asymm h⟩

/-- Witness of C6: `a` is before `a/rev7`. -/
theorem BY_REV_bare_before_revision_witness :
    BY_REV "a".toList ("a".toList ++ "/rev".toList ++ "7".toList) = true ∧
      BY_REV ("a".toList ++ "/rev".toList ++ "7".toList) "a".toList = false :=
  BY_REV_bare_before_revision "a".toList "7".toList (by decide) (by decide)

/-- C9 (the code departs from the claim): with versioning enabled the entry
`a.partX.rev1` is accepted and named `a/rev1`, although it is not of the form
`b.part.revN`: the revision suffix does not follow `.part.` immediately. -/
theorem makePartName_versioned_accepts_infix :
    makePartName true "a.partX.rev1".toList [] = some "a/rev1".toList ∧
      ¬ ∃ b N : STRING, b ≠ [] ∧ N ≠ [] ∧ (∀ x ∈ N, isdigit x = true) ∧
        "a.partX.rev1".toList = b ++ ".part.rev".toList ++ N := by
  have hev : makePartName true "a.partX.rev1".toList [] = some "a/rev1".toList := by decide
  refine ⟨hev, ?_⟩
  rintro ⟨b, N, hb, hne, hN, he⟩
  have h1 := makePartName_true_append b [] N hb hne hN
  have e1 : b ++ dotPart ++ '.' :: 'r' :: 'e' :: 'v' :: N = "a.partX.rev1".toList := by
    rw [he]; simp [dotPart]
  rw [e1, hev] at h1
  have e2 : b ++ '/' :: 'r' :: 'e' :: 'v' :: N = "a/rev1".toList := by
    simpa [categoryPart] using h1.symm
  have h2 := makeFileName_rev [] b N hne hN
  rw [e2] at h2
  have e3 : ([] : STRING) ++ ['/'] ++ b ++ dotPart ++ '.' :: 'r' :: 'e' :: 'v' :: N
      = '/' :: "a.partX.rev1".toList := by
    rw [← e1]; simp
  rw [e3] at h2
  exact absurd h2 (by decide)

/-- C10: with versioning disabled, `makePartName` accepts an entry exactly when
the entry is a non-empty base name followed by a final `.part`; the name it
gives is the entry without its last five characters, after `category/` when the
category is not empty.  The entry `.part` is rejected, and the base name of
`a.part.part` is `a.part`. -/
theorem makePartName_unversioned :
    (∀ e c : STRING, (makePartName false e c).isSome = true
        ↔ ∃ b : STRING, b ≠ [] ∧ e = b ++ ".part".toList) ∧
      (∀ e c : STRING, makePartName false e c = none ∨
        makePartName false e c = some (categoryPart c ++ e.take (e.length - 5))) ∧
      (∀ c : STRING, makePartName false ".part".toList c = none) ∧
      (∀ c : STRING, makePartName false "a.part.part".toList c
        = some (categoryPart c ++ "a.part".toList)) := by
  have hdp : ".part".toList = dotPart := rfl
  refine ⟨?_, ?_, ?_, ?_⟩
  · intro e c
    rw [hdp]
    constructor
    · intro h
      obtain ⟨r, hr⟩ := Option.isSome_iff_exists.1 h
      obtain ⟨b, hb, he, _⟩ := (makePartName_false_iff e c r).1 hr
      exact ⟨b, hb, he⟩
    · rintro ⟨b, hb, rfl⟩
      rw [makePartName_false_append b c hb]; rfl
  · intro e c
    cases h : makePartName false e c with
    | none => exact Or.inl rfl
    | some r =>
      right
      obtain ⟨b, _, rfl, rfl⟩ := (makePartName_false_iff e c r).1 h
      have : (b ++ dotPart).take ((b ++ dotPart).length - 5) = b := by
        have l : (b ++ dotPart).length - 5 = b.length := by simp [dotPart]
        rw [l, List.take_left]
      rw [this]
  · intro c
    cases h : makePartName false ".part".toList c with
    | none => rfl
    | some r =>
      obtain ⟨b, hb, he, _⟩ := (makePartName_false_iff _ c r).1 h
      have := congrArg List.length he
      simp [dotPart] at this
      exact absurd this hb
  · intro c
    exact makePartName_false_append "a.part".toList c (by decide)

/-! ## Facts about the ordered containers -/

/-- Induction over the entries of one directory. -/
theorem FsEntries.induction_on {P : FsEntries → Prop} (h0 : P .nil)
    (h1 : ∀ (n : List Char) (node : FsNode) (rest : FsEntries), P rest → P (.cons n node rest)) :
    ∀ es : FsEntries, P es
  | .nil => h0
  | .cons n node rest => h1 n node rest (FsEntries.induction_on h0 h1 rest)

/-- An insertion is refused when an element equivalent to `x` is in the
container, and only then. -/
theorem setInsert_none_iff (comp : STRING → STRING → Bool)
    (htrans : ∀ a b c, comp a b = true → comp b c = true → comp a c = true)
    (x : STRING) (l : List STRING) (hs : l.Pairwise (fun a b => comp a b = true)) :
    setInsert comp x l = none ↔ ∃ y ∈ l, comp x y = false ∧ comp y x = false := by
  induction l with
  | nil => simp [setInsert]
  | cons y ys ih =>
    rw [List.pairwise_cons] at hs
    obtain ⟨hy, hys⟩ := hs
    have ih' := ih hys
    cases h1 : comp x y with
    | true =>
      simp only [setInsert, h1, if_true]
      constructor
      · intro h; cases h
      · rintro ⟨z, hz, e1, _⟩
        rcases List.mem_cons.1 hz with rfl | hz
        · rw [h1] at e1; cases e1
        · rw [htrans x y z h1 (hy z hz)] at e1; cases e1
    | false =>
      cases h2 : comp y x with
      | true =>
        simp only [setInsert, h1, Bool.false_eq_true, if_false, h2, if_true]
        cases hi : setInsert comp x ys with
        | none =>
          obtain ⟨z, hz, e⟩ := ih'.1 hi
          simp only [true_iff]
          exact ⟨z, List.mem_cons_of_mem _ hz, e⟩
        | some l' =>
          simp only [reduceCtorEq, false_iff]
          rintro ⟨z, hz, e1, e2⟩
          rcases List.mem_cons.1 hz with rfl | hz
          · rw [h2] at e2; cases e2
          · have := ih'.2 ⟨z, hz, e1, e2⟩
            rw [hi] at this; cases this
      | false =>
        simp only [setInsert, h1, Bool.false_eq_true, if_false, h2, true_iff]
        exact ⟨y, List.mem_cons_self _ _, h1, h2⟩

/-- A successful insertion keeps the ascending order and adds `x` to the
elements. -/
theorem setInsert_some (comp : STRING → STRING → Bool)
    (htrans : ∀ a b c, comp a b = true → comp b c = true → comp a c = true)
    (x : STRING) (l l' : List STRING) (hs : l.Pairwise (fun a b => comp a b = true))
    (h : setInsert comp x l = some l') :
    l'.Pairwise (fun a b => comp a b = true) ∧ l'.Perm (x :: l) := by
  induction l generalizing l' with
  | nil =>
    simp only [setInsert, Option.some.injEq] at h
    subst h
    exact ⟨List.pairwise_singleton _ _, List.Perm.refl _⟩
  | cons y ys ih =>
    have hs0 := hs
    rw [List.pairwise_cons] at hs
    obtain ⟨hy, hys⟩ := hs
    cases h1 : comp x y with
    | true =>
      simp only [setInsert, h1, if_true, Option.some.injEq] at h
      subst h
      refine ⟨?_, List.Perm.refl _⟩
      rw [List.pairwise_cons]
      refine ⟨?_, hs0⟩
      intro z hz
      rcases List.mem_cons.1 hz with rfl | hz
      · exact h1
      · exact htrans x y z h1 (hy z hz)
    | false =>
      cases h2 : comp y x with
      | true =>
        simp only [setInsert, h1, Bool.false_eq_true, if_false, h2, if_true] at h
        cases hi : setInsert comp x ys with
        | none => rw [hi] at h; cases h
        | some l2 =>
          rw [hi] at h
          simp only [Option.some.injEq] at h
          subst h
          obtain ⟨s2, p2⟩ := ih l2 hys hi
          constructor
          · rw [List.pairwise_cons]
            refine ⟨?_, s2⟩
            intro z hz
            rcases List.mem_cons.1 (p2.subset hz) with rfl | hz
            · exact h2
            · exact hy z hz
          · exact (List.Perm.cons y p2).trans (List.Perm.swap x y ys)
      | false =>
        simp [setInsert, h1, h2] at h

/-! ## Facts about the scan -/

theorem BY_REV_trans3 : ∀ a b c : STRING, BY_REV a b = true → BY_REV b c = true →
    BY_REV a c = true :=
  fun _ _ _ h1 h2 => BY_REV_trans h1 h2

theorem readdirLoop_nil (icn : List Char → Bool) (uri : STRING) (uv : Bool) (cat : STRING)
    (st : Caches) : readdirLoop icn uri uv cat .nil st = .ok st := by
  simp [readdirLoop]

theorem readdirLoop_dot (icn : List Char → Bool) (uri : STRING) (uv : Bool) (cat : STRING)
    (n : List Char) (node : FsNode) (rest : FsEntries) (st : Caches)
    (hdot : n = ['.'] ∨ n = ['.', '.']) :
    readdirLoop icn uri uv cat (.cons n node rest) st = readdirLoop icn uri uv cat rest st := by
  rw [readdirLoop.eq_def]
  simp only [if_pos hdot]

theorem readdirLoop_noStat (icn : List Char → Bool) (uri : STRING) (uv : Bool) (cat : STRING)
    (n : List Char) (rest : FsEntries) (st : Caches) :
    readdirLoop icn uri uv cat (.cons n .noStat rest) st
      = readdirLoop icn uri uv cat rest st := by
  rw [readdirLoop.eq_def]
  simp only [ite_self]

theorem readdirLoop_other (icn : List Char → Bool) (uri : STRING) (uv : Bool) (cat : STRING)
    (n : List Char) (rest : FsEntries) (st : Caches) :
    readdirLoop icn uri uv cat (.cons n .other rest) st
      = readdirLoop icn uri uv cat rest st := by
  rw [readdirLoop.eq_def]
  simp only [ite_self]

theorem readdirLoop_reg (icn : List Char → Bool) (uri : STRING) (uv : Bool) (cat : STRING)
    (n : List Char) (rest : FsEntries) (st : Caches)
    (hdot : ¬ (n = ['.'] ∨ n = ['.', '.'])) :
    readdirLoop icn uri uv cat (.cons n .reg rest) st
      = match makePartName uv n cat with
        | some partName =>
          match setInsert BY_REV partName st.partnames with
          | some l => readdirLoop icn uri uv cat rest { st with partnames := l }
          | none => .error (.alreadyEncountered partName)
        | none => readdirLoop icn uri uv cat rest st := by
  rw [readdirLoop.eq_def]
  simp only [if_neg hdot]

theorem readdirLoop_dir (icn : List Char → Bool) (uri : STRING) (uv : Bool) (cat : STRING)
    (n : List Char) (o : Bool) (sub rest : FsEntries) (st : Caches)
    (hdot : ¬ (n = ['.'] ∨ n = ['.', '.'])) :
    readdirLoop icn uri uv cat (.cons n (.dir o sub) rest) st
      = if cat.length = 0 ∧ icn n = true then
          match cacheOneDir icn uri uv n (.dir o sub)
              ⟨(setInsert stringLess n st.categories).getD st.categories, st.partnames⟩ with
          | .ok st1 => readdirLoop icn uri uv cat rest st1
          | .error e => .error e
        else readdirLoop icn uri uv cat rest st := by
  rw [readdirLoop.eq_def]
  simp only [if_neg hdot]

theorem cacheOneDir_open (icn : List Char → Bool) (uri : STRING) (uv : Bool) (cat : STRING)
    (entries : FsEntries) (st : Caches) :
    cacheOneDir icn uri uv cat (.dir true entries) st
      = readdirLoop icn uri uv cat entries st := by
  rw [cacheOneDir.eq_def]

theorem cacheOneDir_closed (icn : List Char → Bool) (uri : STRING) (uv : Bool) (cat : STRING)
    (entries : FsEntries) (st : Caches) :
    cacheOneDir icn uri uv cat (.dir false entries) st
      = .error (.scanningDirectory (curDirOf uri cat)) := by
  rw [cacheOneDir.eq_def]

theorem regularFilesIn_dot (n : List Char) (node : FsNode) (rest : FsEntries)
    (hdot : n = ['.'] ∨ n = ['.', '.']) :
    regularFilesIn (.cons n node rest) = regularFilesIn rest := by
  rw [regularFilesIn.eq_def]
  simp only [if_pos hdot]

theorem regularFilesIn_reg (n : List Char) (rest : FsEntries)
    (hdot : ¬ (n = ['.'] ∨ n = ['.', '.'])) :
    regularFilesIn (.cons n .reg rest) = n :: regularFilesIn rest := by
  rw [regularFilesIn.eq_def]
  simp only [if_neg hdot]

theorem regularFilesIn_noStat (n : List Char) (rest : FsEntries) :
    regularFilesIn (.cons n .noStat rest) = regularFilesIn rest := by
  rw [regularFilesIn.eq_def]
  simp only [ite_self]

theorem regularFilesIn_other (n : List Char) (rest : FsEntries) :
    regularFilesIn (.cons n .other rest) = regularFilesIn rest := by
  rw [regularFilesIn.eq_def]
  simp only [ite_self]

theorem regularFilesIn_dir (n : List Char) (o : Bool) (sub rest : FsEntries) :
    regularFilesIn (.cons n (.dir o sub) rest) = regularFilesIn rest := by
  rw [regularFilesIn.eq_def]
  simp only [ite_self]

/-- The scan of a category directory: when it succeeds the part names of its
regular files have been added to the container, which stays in ascending order,
and the categories are as before; when it fails, a part name was met twice. -/
theorem readdirLoop_category (icn : List Char → Bool) (uri : STRING) (uv : Bool)
    (cat : STRING) (hcat : cat.length ≠ 0) :
    ∀ (es : FsEntries) (st : Caches), Ascending st.partnames →
      (∀ st', readdirLoop icn uri uv cat es st = .ok st' →
        Ascending st'.partnames ∧
        st'.partnames.Perm
          ((regularFilesIn es).filterMap (fun n => makePartName uv n cat) ++ st.partnames) ∧
        st'.categories = st.categories) ∧
      (∀ e, readdirLoop icn uri uv cat es st = .error e → ∃ p, e = .alreadyEncountered p) := by
  intro es
  induction es using FsEntries.induction_on with
  | h0 =>
    intro st hst
    rw [readdirLoop_nil]
    constructor
    · intro st' h
      simp only [Except.ok.injEq] at h
      subst h
      exact ⟨hst, by simp [regularFilesIn], rfl⟩
    · intro e h
      cases h
  | h1 n node rest ih =>
    intro st hst
    by_cases hdot : n = ['.'] ∨ n = ['.', '.']
    · rw [readdirLoop_dot _ _ _ _ _ _ _ _ hdot, regularFilesIn_dot _ _ _ hdot]
      exact ih st hst
    · cases node with
      | noStat =>
        rw [readdirLoop_noStat, regularFilesIn_noStat]
        exact ih st hst
      | other =>
        rw [readdirLoop_other, regularFilesIn_other]
        exact ih st hst
      | dir o sub =>
        have hc : ¬ (cat.length = 0 ∧ icn n = true) := fun h => hcat h.1
        rw [readdirLoop_dir _ _ _ _ _ _ _ _ _ hdot, if_neg hc, regularFilesIn_dir]
        exact ih st hst
      | reg =>
        rw [readdirLoop_reg _ _ _ _ _ _ _ hdot, regularFilesIn_reg _ _ hdot]
        cases hm : makePartName uv n cat with
        | none =>
          simp only [List.filterMap_cons, hm]
          exact ih st hst
        | some pn =>
          simp only [List.filterMap_cons, hm]
          cases hi : setInsert BY_REV pn st.partnames with
          | none =>
            constructor
            · intro st' h; cases h
            · intro e h
              simp only [Except.error.injEq] at h
              exact ⟨pn, h.symm⟩
          | some l =>
            obtain ⟨sl, pl⟩ := setInsert_some BY_REV BY_REV_trans3 pn st.partnames l hst hi
            obtain ⟨i1, i2⟩ := ih { st with partnames := l } sl
            constructor
            · intro st' h
              obtain ⟨a, b, c⟩ := i1 st' h
              refine ⟨a, ?_, c⟩
              refine b.trans ?_
              simp only [List.cons_append]
              exact (List.Perm.append_left _ pl).trans List.perm_middle
            · exact i2

theorem scannedFiles_dot (icn : List Char → Bool) (n : List Char) (node : FsNode)
    (rest : FsEntries) (hdot : n = ['.'] ∨ n = ['.', '.']) :
    scannedFiles icn (.cons n node rest) = scannedFiles icn rest := by
  rw [scannedFiles.eq_def]
  simp only [if_pos hdot]

theorem scannedFiles_reg (icn : List Char → Bool) (n : List Char) (rest : FsEntries)
    (hdot : ¬ (n = ['.'] ∨ n = ['.', '.'])) :
    scannedFiles icn (.cons n .reg rest) = ([], n) :: scannedFiles icn rest := by
  rw [scannedFiles.eq_def]
  simp only [if_neg hdot]

theorem scannedFiles_noStat (icn : List Char → Bool) (n : List Char) (rest : FsEntries) :
    scannedFiles icn (.cons n .noStat rest) = scannedFiles icn rest := by
  rw [scannedFiles.eq_def]
  simp only [ite_self]

theorem scannedFiles_other (icn : List Char → Bool) (n : List Char) (rest : FsEntries) :
    scannedFiles icn (.cons n .other rest) = scannedFiles icn rest := by
  rw [scannedFiles.eq_def]
  simp only [ite_self]

theorem scannedFiles_dir_closed (icn : List Char → Bool) (n : List Char) (sub rest : FsEntries) :
    scannedFiles icn (.cons n (.dir false sub) rest) = scannedFiles icn rest := by
  rw [scannedFiles.eq_def]
  simp only [ite_self]

theorem scannedFiles_dir_open (icn : List Char → Bool) (n : List Char) (sub rest : FsEntries)
    (hdot : ¬ (n = ['.'] ∨ n = ['.', '.'])) :
    scannedFiles icn (.cons n (.dir true sub) rest)
      = if icn n = true then
          (regularFilesIn sub).map (fun x => (n, x)) ++ scannedFiles icn rest
        else scannedFiles icn rest := by
  rw [scannedFiles.eq_def]
  simp only [if_neg hdot]

/-- The scan of the root directory: when it succeeds the part names of the
scanned files have been added to the container, which stays in ascending
order; when it fails, a part name was met twice or a directory could not be
opened. -/
theorem readdirLoop_root (icn : List Char → Bool) (uri : STRING) (uv : Bool) :
    ∀ (es : FsEntries) (st : Caches), entryNamesNonEmpty es = true →
      Ascending st.partnames →
      (∀ st', readdirLoop icn uri uv [] es st = .ok st' →
        Ascending st'.partnames ∧
        st'.partnames.Perm (scannedPartNames icn uv es ++ st.partnames)) ∧
      (∀ e, readdirLoop icn uri uv [] es st = .error e →
        (∃ p, e = .alreadyEncountered p) ∨ (∃ d, e = .scanningDirectory d)) := by
  intro es
  induction es using FsEntries.induction_on with
  | h0 =>
    intro st _ hst
    rw [readdirLoop_nil]
    constructor
    · intro st' h
      simp only [Except.ok.injEq] at h
      subst h
      exact ⟨hst, by simp [scannedPartNames, scannedFiles]⟩
    · intro e h
      cases h
  | h1 n node rest ih =>
    intro st hnames hst
    simp only [entryNamesNonEmpty, Bool.and_eq_true, Bool.not_eq_true', List.isEmpty_eq_false]
      at hnames
    obtain ⟨hn, hrest⟩ := hnames
    have ih' := fun st => ih st hrest
    unfold scannedPartNames at ih' ⊢
    by_cases hdot : n = ['.'] ∨ n = ['.', '.']
    · rw [readdirLoop_dot _ _ _ _ _ _ _ _ hdot, scannedFiles_dot _ _ _ _ hdot]
      exact ih' st hst
    · cases node with
      | noStat =>
        rw [readdirLoop_noStat, scannedFiles_noStat]
        exact ih' st hst
      | other =>
        rw [readdirLoop_other, scannedFiles_other]
        exact ih' st hst
      | reg =>
        rw [readdirLoop_reg _ _ _ _ _ _ _ hdot, scannedFiles_reg _ _ _ hdot]
        cases hm : makePartName uv n [] with
        | none =>
          simp only [List.filterMap_cons, hm]
          exact ih' st hst
        | some pn =>
          simp only [List.filterMap_cons, hm]
          cases hi : setInsert BY_REV pn st.partnames with
          | none =>
            constructor
            · intro st' h; cases h
            · intro e h
              simp only [Except.error.injEq] at h
              exact Or.inl ⟨pn, h.symm⟩
          | some l =>
            obtain ⟨sl, pl⟩ := setInsert_some BY_REV BY_REV_trans3 pn st.partnames l hst hi
            obtain ⟨i1, i2⟩ := ih' { st with partnames := l } sl
            constructor
            · intro st' h
              obtain ⟨a, b⟩ := i1 st' h
              refine ⟨a, b.trans ?_⟩
              simp only [List.cons_append]
              exact (List.Perm.append_left _ pl).trans List.perm_middle
            · exact i2
      | dir o sub =>
        rw [readdirLoop_dir _ _ _ _ _ _ _ _ _ hdot]
        by_cases hic : icn n = true
        · have hc : ([] : STRING).length = 0 ∧ icn n = true := ⟨rfl, hic⟩
          rw [if_pos hc]
          cases o with
          | false =>
            rw [cacheOneDir_closed]
            constructor
            · intro st' h; cases h
            · intro e h
              simp only [Except.error.injEq] at h
              exact Or.inr ⟨_, h.symm⟩
          | true =>
            rw [cacheOneDir_open, scannedFiles_dir_open _ _ _ _ hdot, if_pos hic]
            have hlen : n.length ≠ 0 := by
              intro h0; exact hn (List.eq_nil_of_length_eq_zero h0)
            obtain ⟨c1, c2⟩ := readdirLoop_category icn uri uv n hlen sub
              ⟨(setInsert stringLess n st.categories).getD st.categories, st.partnames⟩ hst
            cases hr : readdirLoop icn uri uv n sub
                ⟨(setInsert stringLess n st.categories).getD st.categories, st.partnames⟩ with
            | error e =>
              constructor
              · intro st' h; cases h
              · intro e' h
                simp only [Except.error.injEq] at h
                subst h
                exact Or.inl (c2 e hr)
            | ok st1 =>
              obtain ⟨a1, p1, _⟩ := c1 st1 hr
              obtain ⟨i1, i2⟩ := ih' st1 a1
              constructor
              · intro st' h
                obtain ⟨a, b⟩ := i1 st' h
                refine ⟨a, b.trans ?_⟩
                simp only [List.filterMap_append, List.filterMap_map, List.append_assoc]
                exact (List.Perm.append_left _ p1).trans
                  (List.perm_append_comm_assoc _ _ _)
              · exact i2
        · have hc : ¬ (([] : STRING).length = 0 ∧ icn n = true) := fun h => hic h.2
          rw [if_neg hc]
          cases o with
          | false =>
            rw [scannedFiles_dir_closed]
            exact ih' st hst
          | true =>
            rw [scannedFiles_dir_open _ _ _ _ hdot, if_neg hic]
            exact ih' st hst


/-- A container in ascending order of `BY_REV` holds no string twice. -/
theorem Ascending.nodup {l : List STRING} (h : Ascending l) : l.Nodup := by
  unfold Ascending at h
  refine List.Pairwise.imp ?_ h
  intro a b hab e
  rw [e, BY_REV_irrefl] at hab
  cases hab

/-- Two different places of a list whose images under `f` are the same value
make the list of images repeat that value. -/
theorem not_nodup_filterMap {α β : Type} (f : α → Option β) (l : List α) (i j : Nat)
    (a b : α) (p : β) (hij : i ≠ j) (hi : l[i]? = some a) (hj : l[j]? = some b)
    (ha : f a = some p) (hb : f b = some p) : ¬ (l.filterMap f).Nodup := by
  intro hnd
  unfold List.Nodup at hnd
  rw [List.pairwise_filterMap, List.pairwise_iff_getElem] at hnd
  obtain ⟨hi1, hi2⟩ := List.getElem?_eq_some_iff.1 hi
  obtain ⟨hj1, hj2⟩ := List.getElem?_eq_some_iff.1 hj
  rcases Nat.lt_or_gt_of_ne hij with h | h
  · have := hnd i j hi1 hj1 h p (by rw [hi2]; exact ha) p (by rw [hj2]; exact hb)
    exact this rfl
  · have := hnd j i hj1 hi1 h p (by rw [hj2]; exact hb) p (by rw [hi2]; exact ha)
    exact this rfl

/-- The scan of the whole tree: a successful scan leaves the part names of the
scanned files in the container, in ascending order; a failed scan met a part
name twice or a directory it could not open. -/
theorem cache_spec (icn : List Char → Bool) (uri : STRING) (uv : Bool) (o : Bool)
    (entries : FsEntries) (hnames : entryNamesNonEmpty entries = true) :
    (∀ st, cache icn uri uv (.dir o entries) = .ok st →
      Ascending st.partnames ∧ st.partnames.Perm (scannedPartNames icn uv entries)) ∧
    (∀ e, cache icn uri uv (.dir o entries) = .error e →
      (∃ p, e = .alreadyEncountered p) ∨ (∃ d, e = .scanningDirectory d)) := by
  unfold cache
  cases o with
  | false =>
    rw [cacheOneDir_closed]
    constructor
    · intro st h; cases h
    · intro e h
      simp only [Except.error.injEq] at h
      exact Or.inr ⟨_, h.symm⟩
  | true =>
    rw [cacheOneDir_open]
    obtain ⟨a, b⟩ := readdirLoop_root icn uri uv entries ⟨[], []⟩ hnames List.Pairwise.nil
    refine ⟨?_, b⟩
    intro st h
    have := a st h
    simpa using this

/-! ## The claims on the cache and the queries -/

/-- C7 (the code departs from the claim): in a repository without versioning
whose root holds the regular file `Foo0.part` and the directory `Foo` with the
file `b.part`, the part names cached are `Foo/b` and `Foo0`, and
`GetCategoricalPartNames` of category `Foo` returns both: the name `Foo0` of
the empty category, which does not begin with `Foo/`, is in the result,
because the scan stops at `upper_bound` of `Foo0`, after an element equal to
that bound. -/
theorem GetCategoricalPartNames_returns_upper_bound :
    cache (fun _ => true) "lib".toList false
        (.dir true (.cons "Foo0.part".toList .reg
          (.cons "Foo".toList (.dir true (.cons "b.part".toList .reg .nil)) .nil)))
      = .ok ⟨["Foo".toList], ["Foo/b".toList, "Foo0".toList]⟩ ∧
    GetCategoricalPartNames ["Foo/b".toList, "Foo0".toList] "Foo".toList
      = ["Foo/b".toList, "Foo0".toList] := by
  constructor
  · rfl
  · decide

/-! ## Names of the same revision -/

theorem rootOf_plain (s : STRING) (h : endsWithRev s '/' = none) : rootOf s = s := by
  unfold rootOf rootLen
  rw [h]
  exact List.take_length s

theorem revNum_plain (s : STRING) (h : endsWithRev s '/' = none) : revNum s = none := by
  unfold revNum
  rw [h]

/-- Two names are equivalent for `BY_REV` when they are the same string or have
the same root and revisions that `atoi` reads as the same `int`, and only
then. -/
theorem BY_REV_equiv_iff_sameRevision (a b : STRING) :
    (BY_REV a b = false ∧ BY_REV b a = false) ↔ sameRevision a b := by
  rw [BY_REV_equiv_iff]
  constructor
  · rintro ⟨hr, hn⟩
    cases ha : endsWithRev a '/' with
    | none =>
      cases hb : endsWithRev b '/' with
      | none =>
        rw [rootOf_plain a ha, rootOf_plain b hb] at hr
        exact Or.inl hr
      | some k2 =>
        obtain ⟨q2, N2, rfl, hne2, hN2, _⟩ := endsWithRev_sound b '/' k2 hb
        rw [revNum_plain a ha, revNum_rev q2 N2 hne2 hN2] at hn
        cases hn
    | some k1 =>
      obtain ⟨q1, N1, rfl, hne1, hN1, _⟩ := endsWithRev_sound a '/' k1 ha
      cases hb : endsWithRev b '/' with
      | none =>
        rw [revNum_plain b hb, revNum_rev q1 N1 hne1 hN1] at hn
        cases hn
      | some k2 =>
        obtain ⟨q2, N2, rfl, hne2, hN2, _⟩ := endsWithRev_sound b '/' k2 hb
        rw [rootOf_rev q1 N1 hne1 hN1, rootOf_rev q2 N2 hne2 hN2] at hr
        rw [revNum_rev q1 N1 hne1 hN1, revNum_rev q2 N2 hne2 hN2] at hn
        have hq : q1 = q2 := List.append_cancel_right hr
        subst hq
        right
        exact ⟨q1, N1, N2, hne1, hne2, hN1, hN2, by simp, by simp, Option.some.inj hn⟩
  · rintro (rfl | ⟨r, N1, N2, hne1, hne2, hN1, hN2, rfl, rfl, hv⟩)
    · exact ⟨rfl, rfl⟩
    · have e1 : r ++ "/rev".toList ++ N1 = r ++ '/' :: 'r' :: 'e' :: 'v' :: N1 := by simp
      have e2 : r ++ "/rev".toList ++ N2 = r ++ '/' :: 'r' :: 'e' :: 'v' :: N2 := by simp
      rw [e1, e2, rootOf_rev r N1 hne1 hN1, rootOf_rev r N2 hne2 hN2,
        revNum_rev r N1 hne1 hN1, revNum_rev r N2 hne2 hN2, hv]
      exact ⟨rfl, rfl⟩

/-! ## The claims on the revision suffix and the totality of the ordering -/

/-- C11: for every string `s` and separator `sep`, `endsWithRev` returns a
result exactly when `s` is some `p`, then `sep`, then `rev`, then a non-empty
run `N` of decimal digits, and the segment returned is then the suffix `revN`
of `s`; it returns none for `rev1`, `a/rev`, `a/revx1` and `a/rev1x`. -/
theorem endsWithRev_spec :
    (∀ (s : STRING) (sep : Char) (t : STRING),
      (endsWithRev s sep).map (fun k => s.drop k) = some t ↔
        ∃ p N : List Char, N ≠ [] ∧ (∀ x ∈ N, isdigit x = true) ∧
          s = p ++ [sep] ++ "rev".toList ++ N ∧ t = "rev".toList ++ N) ∧
    (∀ (s : STRING) (sep : Char),
      endsWithRev s sep = none ↔
        ¬ ∃ p N : List Char, N ≠ [] ∧ (∀ x ∈ N, isdigit x = true) ∧
          s = p ++ [sep] ++ "rev".toList ++ N) ∧
    endsWithRev "rev1".toList '/' = none ∧ endsWithRev "a/rev".toList '/' = none ∧
    endsWithRev "a/revx1".toList '/' = none ∧ endsWithRev "a/rev1x".toList '/' = none := by
  have hdrop : ∀ (p N : List Char) (sep : Char),
      (p ++ sep :: 'r' :: 'e' :: 'v' :: N).drop (p.length + 1) = 'r' :: 'e' :: 'v' :: N := by
    intro p N sep
    rw [← List.drop_drop, List.drop_left]; rfl
  refine ⟨?_, ?_, by decide, by decide, by decide, by decide⟩
  · intro s sep t
    constructor
    · intro h
      cases hk : endsWithRev s sep with
      | none => rw [hk] at h; cases h
      | some k =>
        rw [hk] at h
        obtain ⟨p, N, rfl, hne, hN, rfl⟩ := endsWithRev_sound s sep k hk
        simp only [Option.map_some', Option.some.injEq] at h
        rw [hdrop] at h
        exact ⟨p, N, hne, hN, by simp, by rw [← h]; rfl⟩
    · rintro ⟨p, N, hne, hN, rfl, rfl⟩
      have e : p ++ [sep] ++ "rev".toList ++ N = p ++ sep :: 'r' :: 'e' :: 'v' :: N := by simp
      rw [e, endsWithRev_append p N sep hN hne]
      simp only [Option.map_some', Option.some.injEq]
      rw [hdrop]; rfl
  · intro s sep
    constructor
    · rintro h ⟨p, N, hne, hN, rfl⟩
      have e : p ++ [sep] ++ "rev".toList ++ N = p ++ sep :: 'r' :: 'e' :: 'v' :: N := by simp
      rw [e, endsWithRev_append p N sep hN hne] at h
      cases h
    · intro h
      cases hk : endsWithRev s sep with
      | none => rfl
      | some k =>
        obtain ⟨p, N, rfl, hne, hN, _⟩ := endsWithRev_sound s sep k hk
        exact absurd ⟨p, N, hne, hN, by simp⟩ h

/-- C17, as stated, fails: `a/rev1` and `a/rev01` are different strings, and
neither is before the other in `BY_REV`. -/
theorem BY_REV_not_total :
    "a/rev1".toList ≠ "a/rev01".toList ∧
      BY_REV "a/rev1".toList "a/rev01".toList = false ∧
      BY_REV "a/rev01".toList "a/rev1".toList = false := by
  decide

/-- C17, amended: of two strings at most one is before the other in `BY_REV`,
and neither is before the other exactly when they are the same string or
have the same root and revisions that `atoi` reads as the same `int`; every
other pair of strings is ordered one way.  So `a/rev1` and `a/rev4294967297`,
both read as revision 1, compare as equal. -/
theorem BY_REV_total_up_to_revision (s1 s2 : STRING) :
    ¬ (BY_REV s1 s2 = true ∧ BY_REV s2 s1 = true) ∧
      ((BY_REV s1 s2 = false ∧ BY_REV s2 s1 = false) ↔ sameRevision s1 s2) ∧
      (¬ sameRevision s1 s2 →
        (BY_REV s1 s2 = true ∧ BY_REV s2 s1 = false) ∨
        (BY_REV s1 s2 = false ∧ BY_REV s2 s1 = true)) ∧
      (BY_REV "a/rev1".toList "a/rev4294967297".toList = false ∧
        BY_REV "a/rev4294967297".toList "a/rev1".toList = false) := by
  have hiff := BY_REV_equiv_iff_sameRevision s1 s2
  refine ⟨?_, hiff, ?_, by decide⟩
  · rintro ⟨h1, h2⟩
    rw [BY_REV_asymm h1] at h2
    cases h2
  · intro hns
    cases h1 : BY_REV s1 s2 with
    | true => exact Or.inl ⟨rfl, BY_REV_asymm h1⟩
    | false =>
      cases h2 : BY_REV s2 s1 with
      | true => exact Or.inr ⟨rfl, rfl⟩
      | false => exact absurd (hiff.1 ⟨h1, h2⟩) hns

/-! ## Facts about lookup and reading -/

/-- A lookup finds nothing when no element equivalent to `k` is in the
container, and only then. -/
theorem setFind_none_iff (comp : STRING → STRING → Bool)
    (htrans : ∀ a b c, comp a b = true → comp b c = true → comp a c = true)
    (k : STRING) (l : List STRING) (hs : l.Pairwise (fun a b => comp a b = true)) :
    setFind comp k l = none ↔ ¬ ∃ y ∈ l, comp y k = false ∧ comp k y = false := by
  induction l with
  | nil => simp [setFind]
  | cons y ys ih =>
    rw [List.pairwise_cons] at hs
    obtain ⟨hy, hys⟩ := hs
    have ih' := ih hys
    cases h1 : comp y k with
    | true =>
      simp only [setFind, h1, if_true]
      rw [ih']
      constructor
      · rintro h ⟨z, hz, e1, e2⟩
        rcases List.mem_cons.1 hz with rfl | hz
        · rw [h1] at e1; cases e1
        · exact h ⟨z, hz, e1, e2⟩
      · rintro h ⟨z, hz, e1, e2⟩
        exact h ⟨z, List.mem_cons_of_mem _ hz, e1, e2⟩
    | false =>
      cases h2 : comp k y with
      | true =>
        simp only [setFind, h1, Bool.false_eq_true, if_false, h2, if_true, true_iff]
        rintro ⟨z, hz, _, e2⟩
        rcases List.mem_cons.1 hz with rfl | hz
        · rw [h2] at e2; cases e2
        · rw [htrans k y z h2 (hy z hz)] at e2; cases e2
      | false =>
        simp only [setFind, h1, Bool.false_eq_true, if_false, h2, reduceCtorEq, false_iff,
          not_not]
        exact ⟨y, List.mem_cons_self _ _, h1, h2⟩

/-- A lookup in a container in `BY_REV` order finds nothing when the container
holds no name of the same revision as `k`, and only then. -/
theorem setFind_BY_REV_none_iff (k : STRING) (l : List STRING) (hs : Ascending l) :
    setFind BY_REV k l = none ↔ ¬ ∃ y ∈ l, sameRevision y k := by
  rw [setFind_none_iff BY_REV BY_REV_trans3 k l hs]
  constructor
  · rintro h ⟨y, hy, e⟩
    exact h ⟨y, hy, (BY_REV_equiv_iff_sameRevision y k).2 e⟩
  · rintro h ⟨y, hy, e1, e2⟩
    exact h ⟨y, hy, (BY_REV_equiv_iff_sameRevision y k).1 ⟨e1, e2⟩⟩

/-- The method `readSExpression` never reports a part as not found. -/
theorem readSExpression_not_notFound (files : Files) (rb : List Char) (res fn x : STRING) :
    (readSExpression files rb res fn).thrown ≠ some (.notFound x) := by
  unfold readSExpression
  cases files fn with
  | none => simp
  | some fw =>
    simp only
    split
    · simp
    · cases fw.read fw.st_size with
      | none => simp
      | some bytes =>
        simp only
        split <;> simp

/-- A failing `readSExpression` leaves the result string as it was. -/
theorem readSExpression_unchanged (files : Files) (rb : List Char) (res fn : STRING)
    (h : (readSExpression files rb res fn).thrown ≠ none) :
    (readSExpression files rb res fn).aResult = res := by
  unfold readSExpression at h ⊢
  cases hf : files fn with
  | none => rfl
  | some fw =>
    simp only [hf] at h ⊢
    by_cases hsz : fw.st_size > 1 * 1024 * 1024
    · simp only [if_pos hsz]
    · simp only [if_neg hsz] at h ⊢
      cases hr : fw.read fw.st_size with
      | none => rfl
      | some bytes =>
        simp only [hr] at h ⊢
        by_cases hc : bytes.length ≠ fw.st_size
        · simp only [if_pos hc]
        · simp only [if_neg hc] at h
          exact absurd rfl h

/-- What `readSExpression` throws, and the string it returns when it throws
nothing, do not depend on the buffer or on the former value of the result. -/
theorem readSExpression_indep (files : Files) (rb rb' : List Char) (res res' fn : STRING) :
    (readSExpression files rb res fn).thrown = (readSExpression files rb' res' fn).thrown ∧
    ((readSExpression files rb res fn).thrown = none →
      (readSExpression files rb res fn).aResult = (readSExpression files rb' res' fn).aResult) := by
  unfold readSExpression
  cases files fn with
  | none => simp
  | some fw =>
    simp only
    by_cases hsz : fw.st_size > 1 * 1024 * 1024
    · simp only [if_pos hsz]
      simp
    · simp only [if_neg hsz]
      cases fw.read fw.st_size with
      | none => simp
      | some bytes =>
        simp only
        by_cases hc : bytes.length ≠ fw.st_size
        · simp only [if_pos hc]
          simp
        · simp only [if_neg hc, true_and]
          intro _
          rw [List.take_left' rfl, List.take_left' rfl]

/-- A file that opens, is not too big and is read completely is returned in
full. -/
theorem readSExpression_complete (files : Files) (rb : List Char) (res fn : STRING)
    (fw : OpenFile) (content : List Char) (hopen : files fn = some fw)
    (hsz : fw.st_size ≤ 1048576) (hread : fw.read fw.st_size = some content)
    (hlen : content.length = fw.st_size) :
    (readSExpression files rb res fn).thrown = none ∧
    (readSExpression files rb res fn).aResult = content := by
  have h1 : ¬ fw.st_size > 1 * 1024 * 1024 := by omega
  have h2 : ¬ content.length ≠ fw.st_size := by simp [hlen]
  unfold readSExpression
  rw [hopen]
  simp only [if_neg h1, hread, if_neg h2, true_and]
  exact List.take_left' rfl

/-- A file that opens and is bigger than the limit is refused. -/
theorem readSExpression_tooBig (files : Files) (rb : List Char) (res fn : STRING)
    (fw : OpenFile) (hopen : files fn = some fw) (hsz : 1048576 < fw.st_size) :
    readSExpression files rb res fn = ⟨some (.tooBig fn), res, rb⟩ := by
  have h1 : fw.st_size > 1 * 1024 * 1024 := by omega
  unfold readSExpression
  rw [hopen]
  simp only [if_pos h1]

/-- The name that `ReadPart` looks up. -/
theorem ReadPart_found (files : Files) (uri : STRING) (pn : PART_CACHE) (rb : List Char)
    (res p r y : STRING)
    (h : setFind BY_REV (if r.length ≠ 0 then p ++ (['/'] ++ r) else p) pn = some y) :
    ReadPart files uri pn rb res p r = readSExpression files rb res (makeFileName uri p) := by
  unfold ReadPart
  simp only [h]

theorem ReadPart_not_found (files : Files) (uri : STRING) (pn : PART_CACHE) (rb : List Char)
    (res p r : STRING)
    (h : setFind BY_REV (if r.length ≠ 0 then p ++ (['/'] ++ r) else p) pn = none) :
    ReadPart files uri pn rb res p r
      = ⟨some (.notFound (if r.length ≠ 0 then p ++ (['/'] ++ r) else p)), res, rb⟩ := by
  unfold ReadPart
  simp only [h]

/-- A failing `ReadPart` leaves the result string as it was. -/
theorem ReadPart_unchanged (files : Files) (uri : STRING) (pn : PART_CACHE) (rb : List Char)
    (res p r : STRING) (h : (ReadPart files uri pn rb res p r).thrown ≠ none) :
    (ReadPart files uri pn rb res p r).aResult = res := by
  cases hf : setFind BY_REV (if r.length ≠ 0 then p ++ (['/'] ++ r) else p) pn with
  | none => rw [ReadPart_not_found _ _ _ _ _ _ _ hf]
  | some y =>
    rw [ReadPart_found _ _ _ _ _ _ _ y hf] at h ⊢
    exact readSExpression_unchanged _ _ _ _ h

/-- What `ReadPart` throws, and the string it returns when it throws nothing, do
not depend on the buffer or on the former value of the result. -/
theorem ReadPart_indep (files : Files) (uri : STRING) (pn : PART_CACHE) (rb rb' : List Char)
    (res res' p r : STRING) :
    (ReadPart files uri pn rb res p r).thrown = (ReadPart files uri pn rb' res' p r).thrown ∧
    ((ReadPart files uri pn rb res p r).thrown = none →
      (ReadPart files uri pn rb res p r).aResult
        = (ReadPart files uri pn rb' res' p r).aResult) := by
  cases hf : setFind BY_REV (if r.length ≠ 0 then p ++ (['/'] ++ r) else p) pn with
  | none =>
    rw [ReadPart_not_found _ _ _ rb _ _ _ hf, ReadPart_not_found _ _ _ rb' _ _ _ hf]
    simp
  | some y =>
    rw [ReadPart_found _ _ _ rb _ _ _ y hf, ReadPart_found _ _ _ rb' _ _ _ y hf]
    exact readSExpression_indep _ _ _ _ _ _


theorem ReadPartsLoop_cons_ok (files : Files) (uri : STRING) (pn : PART_CACHE) (n : STRING)
    (ns : List STRING) (acc : STRINGS) (rb : List Char)
    (h : (ReadPart files uri pn rb [] n []).thrown = none) :
    ReadPartsLoop files uri pn (n :: ns) acc rb
      = ReadPartsLoop files uri pn ns (acc ++ [(ReadPart files uri pn rb [] n []).aResult])
          (ReadPart files uri pn rb [] n []).readBuffer := by
  rw [ReadPartsLoop]
  simp only [h]

theorem ReadPartsLoop_cons_error (files : Files) (uri : STRING) (pn : PART_CACHE) (n : STRING)
    (ns : List STRING) (acc : STRINGS) (rb : List Char) (e : IO_ERROR)
    (h : (ReadPart files uri pn rb [] n []).thrown = some e) :
    ReadPartsLoop files uri pn (n :: ns) acc rb
      = ⟨some e, acc ++ [(ReadPart files uri pn rb [] n []).aResult],
          (ReadPart files uri pn rb [] n []).readBuffer⟩ := by
  rw [ReadPartsLoop]
  simp only [h]

/-- The loop of `ReadParts` throws nothing when `ReadPart` throws nothing on
every name, and only then. -/
theorem ReadPartsLoop_ok_iff (files : Files) (uri : STRING) (pn : PART_CACHE) :
    ∀ (names : List STRING) (acc : STRINGS) (rb : List Char),
      (ReadPartsLoop files uri pn names acc rb).thrown = none ↔
        ∀ n ∈ names, (ReadPart files uri pn [] [] n []).thrown = none := by
  intro names
  induction names with
  | nil => intro acc rb; simp [ReadPartsLoop]
  | cons n ns ih =>
    intro acc rb
    have hi := (ReadPart_indep files uri pn rb [] [] [] n []).1
    cases ho : (ReadPart files uri pn rb [] n []).thrown with
    | none =>
      rw [ReadPartsLoop_cons_ok _ _ _ _ _ _ _ ho, ih]
      rw [ho] at hi
      simp only [List.mem_cons, forall_eq_or_imp, ← hi, true_and]
    | some e =>
      rw [ReadPartsLoop_cons_error _ _ _ _ _ _ _ e ho]
      rw [ho] at hi
      simp only [reduceCtorEq, List.mem_cons, forall_eq_or_imp, ← hi, false_and]

/-- When the loop of `ReadParts` throws nothing, it has appended the payloads of
the names, in order. -/
theorem ReadPartsLoop_result (files : Files) (uri : STRING) (pn : PART_CACHE) :
    ∀ (names : List STRING) (acc : STRINGS) (rb : List Char),
      (ReadPartsLoop files uri pn names acc rb).thrown = none →
        (ReadPartsLoop files uri pn names acc rb).aResult
          = acc ++ names.map (fun n => (ReadPart files uri pn [] [] n []).aResult) := by
  intro names
  induction names with
  | nil => intro acc rb _; simp [ReadPartsLoop]
  | cons n ns ih =>
    intro acc rb h
    cases ho : (ReadPart files uri pn rb [] n []).thrown with
    | none =>
      rw [ReadPartsLoop_cons_ok _ _ _ _ _ _ _ ho] at h ⊢
      rw [ih _ _ h, (ReadPart_indep files uri pn rb [] [] [] n []).2 ho]
      simp
    | some e =>
      rw [ReadPartsLoop_cons_error _ _ _ _ _ _ _ e ho] at h
      cases h

/-- The loop of `ReadParts` stops at the first name on which `ReadPart` throws:
it throws the same error, and the names after that one change nothing. -/
theorem ReadPartsLoop_first_failure (files : Files) (uri : STRING) (pn : PART_CACHE)
    (n : STRING) (l2 : List STRING) (e : IO_ERROR)
    (hn : (ReadPart files uri pn [] [] n []).thrown = some e) :
    ∀ (l1 : List STRING) (acc : STRINGS) (rb : List Char),
      (∀ m ∈ l1, (ReadPart files uri pn [] [] m []).thrown = none) →
        (ReadPartsLoop files uri pn (l1 ++ n :: l2) acc rb).thrown = some e ∧
        ReadPartsLoop files uri pn (l1 ++ n :: l2) acc rb
          = ReadPartsLoop files uri pn (l1 ++ [n]) acc rb := by
  intro l1
  induction l1 with
  | nil =>
    intro acc rb _
    have ho : (ReadPart files uri pn rb [] n []).thrown = some e := by
      rw [(ReadPart_indep files uri pn rb [] [] [] n []).1]; exact hn
    simp only [List.nil_append]
    rw [ReadPartsLoop_cons_error _ _ _ _ _ _ _ e ho, ReadPartsLoop_cons_error _ _ _ _ _ _ _ e ho]
    exact ⟨rfl, rfl⟩
  | cons m ms ih =>
    intro acc rb hall
    have hm : (ReadPart files uri pn rb [] m []).thrown = none := by
      rw [(ReadPart_indep files uri pn rb [] [] [] m []).1]
      exact hall m (List.mem_cons_self _ _)
    simp only [List.cons_append]
    rw [ReadPartsLoop_cons_ok _ _ _ _ _ _ _ hm, ReadPartsLoop_cons_ok _ _ _ _ _ _ _ hm]
    exact ih _ _ (fun x hx => hall x (List.mem_cons_of_mem _ hx))

/-! ## The claims on reading parts -/

/-- C12, as stated, fails: the cache holds `a/rev1` only, the string `a/rev01`
is not an element of it, and yet `ReadPart` of `a/rev01` does not fail with the
part-not-found error: the lookup finds `a/rev1`, and the failure is that
`lib/a.part.rev01` cannot be opened. -/
theorem ReadPart_lookup_not_exact :
    "a/rev01".toList ∉ ["a/rev1".toList] ∧
      (ReadPart (fun _ => none) "lib".toList ["a/rev1".toList] [] [] "a/rev01".toList []).thrown
        = some (.cannotOpen "lib/a.part.rev01".toList) := by
  decide

/-- C12, amended: for a cache in `BY_REV` order, part name `p` and revision
argument `r`, `ReadPart` fails with the part-not-found error exactly when no
cached part name has the same revision as the string looked up, which is `p`
when `r` is empty and `p/r` otherwise: a cached name with the same root and a
revision that `atoi` reads as the same `int` is found.  So with the cache that
holds `a/rev1`, `ReadPart` of `a/rev4294967297` finds `a/rev1` and fails on
opening `lib/a.part.rev4294967297`. -/
theorem ReadPart_not_found_iff (files : Files) (uri : STRING) (pn : PART_CACHE)
    (rb : List Char) (res p r : STRING) (hasc : Ascending pn) :
    ((∃ x, (ReadPart files uri pn rb res p r).thrown = some (.notFound x)) ↔
      ¬ ∃ y ∈ pn, sameRevision y (if r = [] then p else p ++ "/".toList ++ r)) ∧
    (ReadPart (fun _ => none) "lib".toList ["a/rev1".toList] [] []
        "a/rev4294967297".toList []).thrown
      = some (.cannotOpen "lib/a.part.rev4294967297".toList) := by
  refine ⟨?_, by decide⟩
  have hname : (if r.length ≠ 0 then p ++ (['/'] ++ r) else p)
      = (if r = [] then p else p ++ "/".toList ++ r) := by
    cases r with
    | nil => rfl
    | cons c cs => simp
  rw [← hname, ← setFind_BY_REV_none_iff _ pn hasc]
  constructor
  · rintro ⟨x, hx⟩
    cases hf : setFind BY_REV (if r.length ≠ 0 then p ++ (['/'] ++ r) else p) pn with
    | none => rfl
    | some y =>
      rw [ReadPart_found _ _ _ _ _ _ _ y hf] at hx
      exact absurd hx (readSExpression_not_notFound _ _ _ _ _)
  · intro hf
    rw [ReadPart_not_found _ _ _ _ _ _ _ hf]
    exact ⟨_, rfl⟩

/-- Witness of C12: in the cache that holds `a/rev2` and `a/rev1`, the name
`a/rev3` is not found. -/
theorem ReadPart_not_found_iff_witness :
    (∃ x, (ReadPart (fun _ => none) "lib".toList ["a/rev2".toList, "a/rev1".toList] [] []
        "a".toList "rev3".toList).thrown = some (.notFound x)) ↔
      ¬ ∃ y ∈ ["a/rev2".toList, "a/rev1".toList],
        sameRevision y (if "rev3".toList = [] then "a".toList
          else "a".toList ++ "/".toList ++ "rev3".toList) :=
  (ReadPart_not_found_iff (fun _ => none) "lib".toList ["a/rev2".toList, "a/rev1".toList] [] []
    "a".toList "rev3".toList (by unfold Ascending; decide)).1


/-- C13: for a cached part whose file can be opened and is read completely,
`ReadPart` fails with the size-limit error exactly when the file size is greater
than 1,048,576 bytes; a file of at most 1,048,576 bytes is returned in full;
and whenever `ReadPart` fails, the result string of the caller is as it was. -/
theorem ReadPart_size_limit (files : Files) (uri : STRING) (pn : PART_CACHE)
    (rb : List Char) (res p r y : STRING) (fw : OpenFile) (content : List Char)
    (hfound : setFind BY_REV (if r.length ≠ 0 then p ++ (['/'] ++ r) else p) pn = some y)
    (hopen : files (makeFileName uri p) = some fw)
    (hread : fw.read fw.st_size = some content) (hlen : content.length = fw.st_size) :
    ((∃ f, (ReadPart files uri pn rb res p r).thrown = some (.tooBig f))
        ↔ 1048576 < fw.st_size) ∧
      (fw.st_size ≤ 1048576 →
        (ReadPart files uri pn rb res p r).thrown = none ∧
        (ReadPart files uri pn rb res p r).aResult = content) ∧
      (∀ (files1 : Files) (uri1 : STRING) (pn1 : PART_CACHE) (rb1 : List Char)
          (res1 p1 r1 : STRING),
        (ReadPart files1 uri1 pn1 rb1 res1 p1 r1).thrown ≠ none →
          (ReadPart files1 uri1 pn1 rb1 res1 p1 r1).aResult = res1) := by
  rw [ReadPart_found _ _ _ _ _ _ _ y hfound]
  refine ⟨?_, ?_, ?_⟩
  · constructor
    · rintro ⟨f, hf⟩
      by_contra hle
      have := (readSExpression_complete files rb res _ fw content hopen (by omega) hread hlen).1
      rw [this] at hf
      cases hf
    · intro hgt
      rw [readSExpression_tooBig files rb res _ fw hopen hgt]
      exact ⟨_, rfl⟩
  · intro hle
    exact readSExpression_complete files rb res _ fw content hopen hle hread hlen
  · intro files1 uri1 pn1 rb1 res1 p1 r1 h
    exact ReadPart_unchanged _ _ _ _ _ _ _ h

/-- Witness of C13: the cached part `a` whose file `lib/a.part` holds the three
bytes `abc`. -/
theorem ReadPart_size_limit_witness :
    (ReadPart (fun f => if f = "lib/a.part".toList then
          some ⟨3, fun _ => some "abc".toList⟩ else none)
        "lib".toList ["a".toList] [] "old".toList "a".toList []).thrown = none ∧
      (ReadPart (fun f => if f = "lib/a.part".toList then
          some ⟨3, fun _ => some "abc".toList⟩ else none)
        "lib".toList ["a".toList] [] "old".toList "a".toList []).aResult = "abc".toList :=
  (ReadPart_size_limit (fun f => if f = "lib/a.part".toList then
      some ⟨3, fun _ => some "abc".toList⟩ else none)
    "lib".toList ["a".toList] [] "old".toList "a".toList [] "a".toList
    ⟨3, fun _ => some "abc".toList⟩ "abc".toList (by decide) (by rfl) (by rfl) (by rfl)).2.1
    (by decide)

/-- C14: `ReadParts` succeeds exactly when `ReadPart` without a revision
succeeds on every name of the list; the result then has the length of the list
and holds, place by place, the payload `ReadPart` returns for the name at that
place; otherwise `ReadParts` fails with the error of the first name in the list
on which `ReadPart` fails, and the names after that one change nothing. -/
theorem ReadParts_spec (files : Files) (uri : STRING) (pn : PART_CACHE) (rb : List Char)
    (names : List STRING) :
    ((ReadParts files uri pn rb names).thrown = none ↔
        ∀ n ∈ names, (ReadPart files uri pn [] [] n []).thrown = none) ∧
      ((ReadParts files uri pn rb names).thrown = none →
        (ReadParts files uri pn rb names).aResult.length = names.length ∧
        (ReadParts files uri pn rb names).aResult
          = names.map (fun n => (ReadPart files uri pn [] [] n []).aResult)) ∧
      (∀ (l1 : List STRING) (n : STRING) (l2 : List STRING) (e : IO_ERROR),
        names = l1 ++ n :: l2 →
        (∀ m ∈ l1, (ReadPart files uri pn [] [] m []).thrown = none) →
        (ReadPart files uri pn [] [] n []).thrown = some e →
          (ReadParts files uri pn rb names).thrown = some e ∧
          ReadParts files uri pn rb names = ReadParts files uri pn rb (l1 ++ [n])) := by
  unfold ReadParts
  refine ⟨ReadPartsLoop_ok_iff files uri pn names [] rb, ?_, ?_⟩
  · intro h
    have hr := ReadPartsLoop_result files uri pn names [] rb h
    rw [List.nil_append] at hr
    rw [hr]
    exact ⟨by simp, rfl⟩
  · rintro l1 n l2 e rfl hall hn
    exact ReadPartsLoop_first_failure files uri pn n l2 e hn l1 [] rb hall

/-- C19: for every part name `p` and non-empty revision argument `r` whose
lookup as `p/r` succeeds, `ReadPart` reads the file `makeFileName( p )`, built
from the name without `r`: it is `root/p.part` when `p` has no `/revN` suffix,
and what is at any other path makes no difference. -/
theorem ReadPart_opens_unsuffixed (files : Files) (uri : STRING) (pn : PART_CACHE)
    (rb : List Char) (res p r y : STRING) (hr : r ≠ [])
    (hfound : setFind BY_REV (p ++ "/".toList ++ r) pn = some y) :
    ReadPart files uri pn rb res p r = readSExpression files rb res (makeFileName uri p) ∧
      (endsWithRev p '/' = none →
        makeFileName uri p = uri ++ "/".toList ++ p ++ ".part".toList) ∧
      (∀ files1 : Files, files1 (makeFileName uri p) = files (makeFileName uri p) →
        ReadPart files1 uri pn rb res p r = ReadPart files uri pn rb res p r) := by
  have hname : (if r.length ≠ 0 then p ++ (['/'] ++ r) else p) = p ++ "/".toList ++ r := by
    cases r with
    | nil => exact absurd rfl hr
    | cons c cs => simp
  have hf : setFind BY_REV (if r.length ≠ 0 then p ++ (['/'] ++ r) else p) pn = some y := by
    rw [hname]; exact hfound
  refine ⟨ReadPart_found _ _ _ _ _ _ _ y hf, ?_, ?_⟩
  · intro hp
    rw [makeFileName_plain uri p hp]
    rfl
  · intro files1 h1
    rw [ReadPart_found files1 _ _ _ _ _ _ y hf, ReadPart_found files _ _ _ _ _ _ y hf]
    unfold readSExpression
    rw [h1]

/-- Witness of C19: the cache holds `a/rev1`; `ReadPart` of `a` with revision
`rev1` reads `lib/a.part`. -/
theorem ReadPart_opens_unsuffixed_witness :
    ReadPart (fun _ => none) "lib".toList ["a/rev1".toList] [] [] "a".toList "rev1".toList
        = readSExpression (fun _ => none) [] [] (makeFileName "lib".toList "a".toList) ∧
      (endsWithRev "a".toList '/' = none →
        makeFileName "lib".toList "a".toList
          = "lib".toList ++ "/".toList ++ "a".toList ++ ".part".toList) ∧
      (∀ files1 : Files, files1 (makeFileName "lib".toList "a".toList)
          = (fun _ => none) (makeFileName "lib".toList "a".toList) →
        ReadPart files1 "lib".toList ["a/rev1".toList] [] [] "a".toList "rev1".toList
          = ReadPart (fun _ => none) "lib".toList ["a/rev1".toList] [] [] "a".toList
              "rev1".toList) :=
  ReadPart_opens_unsuffixed (fun _ => none) "lib".toList ["a/rev1".toList] [] [] "a".toList
    "rev1".toList "a/rev1".toList (by decide) (by decide)

/-! ## The scan as a sequence of insertions -/

theorem insertAll_append (a b : List STRING) :
    ∀ l : PART_CACHE, insertAll (a ++ b) l
      = match insertAll a l with
        | .ok l1 => insertAll b l1
        | .error e => .error e := by
  induction a with
  | nil => intro l; rfl
  | cons p ps ih =>
    intro l
    simp only [List.cons_append, insertAll]
    cases setInsert BY_REV p l with
    | none => rfl
    | some l1 => exact ih l1

/-- Successful insertions keep the ascending order and add the names to the
elements. -/
theorem insertAll_ok (names : List STRING) :
    ∀ (l l1 : PART_CACHE), Ascending l → insertAll names l = .ok l1 →
      Ascending l1 ∧ l1.Perm (names ++ l) := by
  induction names with
  | nil =>
    intro l l1 hl h
    simp only [insertAll, Except.ok.injEq] at h
    subst h
    exact ⟨hl, List.Perm.refl _⟩
  | cons p ps ih =>
    intro l l1 hl h
    simp only [insertAll] at h
    cases hi : setInsert BY_REV p l with
    | none => rw [hi] at h; cases h
    | some l2 =>
      rw [hi] at h
      obtain ⟨s2, p2⟩ := setInsert_some BY_REV BY_REV_trans3 p l l2 hl hi
      obtain ⟨a, b⟩ := ih l2 l1 s2 h
      refine ⟨a, b.trans ?_⟩
      simp only [List.cons_append]
      exact (List.Perm.append_left _ p2).trans List.perm_middle

/-- When a sequence of insertions fails, it fails on a name that is equivalent
to an earlier name of the sequence or to an element of the container. -/
theorem insertAll_error (names : List STRING) :
    ∀ (l : PART_CACHE) (e : IO_ERROR), Ascending l → insertAll names l = .error e →
      ∃ p l1 l2, e = .alreadyEncountered p ∧ names = l1 ++ p :: l2 ∧
        ∃ q ∈ l1 ++ l, BY_REV q p = false ∧ BY_REV p q = false := by
  induction names with
  | nil => intro l e _ h; cases h
  | cons p ps ih =>
    intro l e hl h
    simp only [insertAll] at h
    cases hi : setInsert BY_REV p l with
    | none =>
      rw [hi] at h
      simp only [Except.error.injEq] at h
      obtain ⟨y, hy, e1, e2⟩ := (setInsert_none_iff BY_REV BY_REV_trans3 p l hl).1 hi
      exact ⟨p, [], ps, h.symm, rfl, y, by simpa using hy, e2, e1⟩
    | some l2 =>
      rw [hi] at h
      obtain ⟨s2, p2⟩ := setInsert_some BY_REV BY_REV_trans3 p l l2 hl hi
      obtain ⟨p', l1, l3, he, hps, q, hq, e1, e2⟩ := ih l2 e s2 h
      refine ⟨p', p :: l1, l3, he, by rw [hps]; rfl, q, ?_, e1, e2⟩
      rcases List.mem_append.1 hq with hq | hq
      · simp [hq]
      · rcases List.mem_cons.1 (p2.subset hq) with rfl | hq
        · simp
        · simp [hq]

/-- The scan of a category directory is the insertion of the part names of its
regular files, in the order of the listing. -/
theorem readdirLoop_category_insertAll (icn : List Char → Bool) (uri : STRING) (uv : Bool)
    (cat : STRING) (hcat : cat.length ≠ 0) :
    ∀ (es : FsEntries) (st : Caches),
      readdirLoop icn uri uv cat es st
        = match insertAll ((regularFilesIn es).filterMap (fun n => makePartName uv n cat))
            st.partnames with
          | .ok l => .ok ⟨st.categories, l⟩
          | .error e => .error e := by
  intro es
  induction es using FsEntries.induction_on with
  | h0 =>
    intro st
    rw [readdirLoop_nil]
    simp [regularFilesIn, insertAll]
  | h1 n node rest ih =>
    intro st
    by_cases hdot : n = ['.'] ∨ n = ['.', '.']
    · rw [readdirLoop_dot _ _ _ _ _ _ _ _ hdot, regularFilesIn_dot _ _ _ hdot]
      exact ih st
    · cases node with
      | noStat =>
        rw [readdirLoop_noStat, regularFilesIn_noStat]
        exact ih st
      | other =>
        rw [readdirLoop_other, regularFilesIn_other]
        exact ih st
      | dir o sub =>
        have hc : ¬ (cat.length = 0 ∧ icn n = true) := fun h => hcat h.1
        rw [readdirLoop_dir _ _ _ _ _ _ _ _ _ hdot, if_neg hc, regularFilesIn_dir]
        exact ih st
      | reg =>
        rw [readdirLoop_reg _ _ _ _ _ _ _ hdot, regularFilesIn_reg _ _ hdot]
        cases hm : makePartName uv n cat with
        | none =>
          simp only [List.filterMap_cons, hm]
          exact ih st
        | some pn =>
          simp only [List.filterMap_cons, hm, insertAll]
          cases hi : setInsert BY_REV pn st.partnames with
          | none => rfl
          | some l => exact ih { st with partnames := l }


/-- The scan of the root stops at a directory that cannot be opened, or is the
insertion of the part names of the scanned files, in scan order. -/
theorem readdirLoop_root_insertAll (icn : List Char → Bool) (uri : STRING) (uv : Bool) :
    ∀ (es : FsEntries) (st : Caches), entryNamesNonEmpty es = true →
      (∃ d, readdirLoop icn uri uv [] es st = .error (.scanningDirectory d)) ∨
      (∃ cats, readdirLoop icn uri uv [] es st
        = match insertAll (scannedPartNames icn uv es) st.partnames with
          | .ok l => .ok ⟨cats, l⟩
          | .error e => .error e) := by
  intro es
  induction es using FsEntries.induction_on with
  | h0 =>
    intro st _
    right
    refine ⟨st.categories, ?_⟩
    rw [readdirLoop_nil]
    simp [scannedPartNames, scannedFiles, insertAll]
  | h1 n node rest ih =>
    intro st hnames
    simp only [entryNamesNonEmpty, Bool.and_eq_true, Bool.not_eq_true', List.isEmpty_eq_false]
      at hnames
    obtain ⟨hn, hrest⟩ := hnames
    have ih' := fun st => ih st hrest
    unfold scannedPartNames at ih' ⊢
    by_cases hdot : n = ['.'] ∨ n = ['.', '.']
    · rw [readdirLoop_dot _ _ _ _ _ _ _ _ hdot, scannedFiles_dot _ _ _ _ hdot]
      exact ih' st
    · cases node with
      | noStat =>
        rw [readdirLoop_noStat, scannedFiles_noStat]
        exact ih' st
      | other =>
        rw [readdirLoop_other, scannedFiles_other]
        exact ih' st
      | reg =>
        rw [readdirLoop_reg _ _ _ _ _ _ _ hdot, scannedFiles_reg _ _ _ hdot]
        cases hm : makePartName uv n [] with
        | none =>
          simp only [List.filterMap_cons, hm]
          exact ih' st
        | some pn =>
          simp only [List.filterMap_cons, hm, insertAll]
          cases hi : setInsert BY_REV pn st.partnames with
          | none => exact Or.inr ⟨st.categories, rfl⟩
          | some l => exact ih' { st with partnames := l }
      | dir o sub =>
        rw [readdirLoop_dir _ _ _ _ _ _ _ _ _ hdot]
        by_cases hic : icn n = true
        · have hc : ([] : STRING).length = 0 ∧ icn n = true := ⟨rfl, hic⟩
          rw [if_pos hc]
          cases o with
          | false =>
            rw [cacheOneDir_closed]
            exact Or.inl ⟨_, rfl⟩
          | true =>
            have hlen : n.length ≠ 0 := by
              intro h0; exact hn (List.eq_nil_of_length_eq_zero h0)
            have hsub : ((regularFilesIn sub).map (fun x => (n, x))).filterMap
                (fun f : STRING × List Char => makePartName uv f.2 f.1)
                = (regularFilesIn sub).filterMap (fun x => makePartName uv x n) := by
              rw [List.filterMap_map]; rfl
            rw [cacheOneDir_open, scannedFiles_dir_open _ _ _ _ hdot, if_pos hic,
              List.filterMap_append, hsub, insertAll_append,
              readdirLoop_category_insertAll icn uri uv n hlen sub]
            cases hi : insertAll ((regularFilesIn sub).filterMap (fun x => makePartName uv x n))
                st.partnames with
            | error e => exact Or.inr ⟨st.categories, rfl⟩
            | ok l =>
              exact ih' ⟨(setInsert stringLess n st.categories).getD st.categories, l⟩
        · have hc : ¬ (([] : STRING).length = 0 ∧ icn n = true) := fun h => hic h.2
          rw [if_neg hc]
          cases o with
          | false =>
            rw [scannedFiles_dir_closed]
            exact ih' st
          | true =>
            rw [scannedFiles_dir_open _ _ _ _ hdot, if_neg hic]
            exact ih' st

/-- A scan that fails because a part name was already encountered is a failing
insertion of the part names of the scanned files. -/
theorem cache_alreadyEncountered (icn : List Char → Bool) (uri : STRING) (uv : Bool)
    (o : Bool) (entries : FsEntries) (hnames : entryNamesNonEmpty entries = true)
    (p : STRING) (h : cache icn uri uv (.dir o entries) = .error (.alreadyEncountered p)) :
    insertAll (scannedPartNames icn uv entries) [] = .error (.alreadyEncountered p) := by
  unfold cache at h
  cases o with
  | false =>
    rw [cacheOneDir_closed] at h
    cases h
  | true =>
    rw [cacheOneDir_open] at h
    rcases readdirLoop_root_insertAll icn uri uv entries ⟨[], []⟩ hnames with ⟨d, hd⟩ | ⟨c, hc⟩
    · rw [hd] at h; cases h
    · rw [hc] at h
      cases hi : insertAll (scannedPartNames icn uv entries) [] with
      | ok l =>
        have : insertAll (scannedPartNames icn uv entries) (Caches.partnames ⟨[], []⟩)
            = .ok l := hi
        rw [this] at h; cases h
      | error e =>
        have : insertAll (scannedPartNames icn uv entries) (Caches.partnames ⟨[], []⟩)
            = .error e := hi
        rw [this] at h
        simp only [Except.error.injEq] at h
        rw [h]


/-- Two places of a list of images come from two places of the list, in the
same order. -/
theorem filterMap_two_places {α β : Type} (f : α → Option β) (l : List α) (a b c : List β)
    (x y : β) (h : l.filterMap f = a ++ x :: (b ++ y :: c)) :
    ∃ (i j : Nat) (u v : α), i < j ∧ l[i]? = some u ∧ l[j]? = some v ∧
      f u = some x ∧ f v = some y := by
  obtain ⟨l1, l2, rfl, _, h2⟩ := List.filterMap_eq_append_iff.1 h
  obtain ⟨m1, u, m2, rfl, _, hu, h3⟩ := List.filterMap_eq_cons_iff.1 h2
  obtain ⟨n1, n2, rfl, _, h4⟩ := List.filterMap_eq_append_iff.1 h3
  obtain ⟨k1, v, k2, rfl, _, hv, _⟩ := List.filterMap_eq_cons_iff.1 h4
  refine ⟨(l1 ++ m1).length, (l1 ++ m1 ++ u :: (n1 ++ k1)).length, u, v, ?_, ?_, ?_, hu, hv⟩
  · simp
  · have e : l1 ++ (m1 ++ u :: (n1 ++ (k1 ++ v :: k2)))
        = (l1 ++ m1) ++ u :: (n1 ++ (k1 ++ v :: k2)) := by simp
    rw [e, List.getElem?_append_right (Nat.le_refl _)]
    simp
  · have e : l1 ++ (m1 ++ u :: (n1 ++ (k1 ++ v :: k2)))
        = (l1 ++ m1 ++ u :: (n1 ++ k1)) ++ v :: k2 := by simp
    rw [e, List.getElem?_append_right (Nat.le_refl _)]
    simp

/-! ## The claims on the scan -/

/-- C18, as stated, fails: with versioning, a root that holds the regular files
`a.part.rev1` and `a.part.rev01` makes the construction fail with the error
that `a/rev01` has already been encountered, although the two files are named
`a/rev1` and `a/rev01`, which are different strings. -/
theorem duplicate_error_without_identical_names :
    cache (fun _ => true) "lib".toList true
        (.dir true (.cons "a.part.rev1".toList .reg
          (.cons "a.part.rev01".toList .reg .nil)))
      = .error (.alreadyEncountered "a/rev01".toList) ∧
    scannedPartNames (fun _ => true) true
        (.cons "a.part.rev1".toList .reg (.cons "a.part.rev01".toList .reg .nil))
      = ["a/rev1".toList, "a/rev01".toList] ∧
    "a/rev1".toList ≠ "a/rev01".toList := by
  refine ⟨by rfl, by decide, by decide⟩

/-- C18, amended: over a directory tree, whenever the construction of the cache
fails with the error that a part name has already been encountered, two
different scanned regular files were given part names of the same revision by
`makePartName`: the same string, or the same root with revisions that `atoi`
reads as the same `int`; the name in the error is that of the later file.  So
a root that holds `a.part.rev1` and `a.part.rev4294967297` fails with the
error that `a/rev4294967297` has already been encountered. -/
theorem duplicate_error_means_same_revision (icn : List Char → Bool) (uri : STRING)
    (uv : Bool) (o : Bool) (entries : FsEntries)
    (hnames : entryNamesNonEmpty entries = true) (p : STRING)
    (herr : cache icn uri uv (.dir o entries) = .error (.alreadyEncountered p)) :
    (∃ (i j : Nat) (f1 f2 : STRING × List Char) (q : STRING), i < j ∧
      (scannedFiles icn entries)[i]? = some f1 ∧ (scannedFiles icn entries)[j]? = some f2 ∧
      makePartName uv f1.2 f1.1 = some q ∧ makePartName uv f2.2 f2.1 = some p ∧
      sameRevision q p) ∧
    cache (fun _ => true) "lib".toList true
        (.dir true (.cons "a.part.rev1".toList .reg
          (.cons "a.part.rev4294967297".toList .reg .nil)))
      = .error (.alreadyEncountered "a/rev4294967297".toList) := by
  refine ⟨?_, by rfl⟩
  have hins := cache_alreadyEncountered icn uri uv o entries hnames p herr
  obtain ⟨p', l1, l2, he, hl, q, hq, e1, e2⟩ :=
    insertAll_error _ [] _ List.Pairwise.nil hins
  simp only [IO_ERROR.alreadyEncountered.injEq] at he
  subst he
  rw [List.append_nil] at hq
  obtain ⟨a, b, rfl⟩ := List.append_of_mem hq
  have hl' : (scannedFiles icn entries).filterMap
      (fun f : STRING × List Char => makePartName uv f.2 f.1) = a ++ q :: (b ++ p :: l2) := by
    have : scannedPartNames icn uv entries = a ++ q :: b ++ p :: l2 := hl
    rw [scannedPartNames] at this
    rw [this]; simp
  obtain ⟨i, j, f1, f2, hij, h1, h2, hf1, hf2⟩ := filterMap_two_places _ _ a b l2 q p hl'
  exact ⟨i, j, f1, f2, q, hij, h1, h2, hf1, hf2,
    (BY_REV_equiv_iff_sameRevision q p).1 ⟨e1, e2⟩⟩

/-- Witness of C18: the root that holds `a.part.rev1` and `a.part.rev01`. -/
theorem duplicate_error_means_same_revision_witness :
    ∃ (i j : Nat) (f1 f2 : STRING × List Char) (q : STRING), i < j ∧
      (scannedFiles (fun _ => true)
        (.cons "a.part.rev1".toList .reg (.cons "a.part.rev01".toList .reg .nil)))[i]?
        = some f1 ∧
      (scannedFiles (fun _ => true)
        (.cons "a.part.rev1".toList .reg (.cons "a.part.rev01".toList .reg .nil)))[j]?
        = some f2 ∧
      makePartName true f1.2 f1.1 = some q ∧
      makePartName true f2.2 f2.1 = some "a/rev01".toList ∧
      sameRevision q "a/rev01".toList :=
  (duplicate_error_means_same_revision (fun _ => true) "lib".toList true true
    (.cons "a.part.rev1".toList .reg (.cons "a.part.rev01".toList .reg .nil))
    (by decide) "a/rev01".toList (by rfl)).1

/-! ## The scan does not look below the first-level directories -/

theorem pruneCategoryDir_cons (n : List Char) (node : FsNode) (rest : FsEntries) :
    pruneCategoryDir (.cons n node rest)
      = match node with
        | .dir _ _ => .cons n (.dir false .nil) (pruneCategoryDir rest)
        | .noStat => .cons n .noStat (pruneCategoryDir rest)
        | .reg => .cons n .reg (pruneCategoryDir rest)
        | .other => .cons n .other (pruneCategoryDir rest) := by
  rw [pruneCategoryDir.eq_def]

theorem pruneRoot_cons (n : List Char) (node : FsNode) (rest : FsEntries) :
    pruneRoot (.cons n node rest)
      = match node with
        | .dir o sub => .cons n (.dir o (pruneCategoryDir sub)) (pruneRoot rest)
        | .noStat => .cons n .noStat (pruneRoot rest)
        | .reg => .cons n .reg (pruneRoot rest)
        | .other => .cons n .other (pruneRoot rest) := by
  rw [pruneRoot.eq_def]

/-- A category directory lists the same regular files after the cut. -/
theorem regularFilesIn_prune :
    ∀ es : FsEntries, regularFilesIn (pruneCategoryDir es) = regularFilesIn es := by
  intro es
  induction es using FsEntries.induction_on with
  | h0 => rfl
  | h1 n node rest ih =>
    rw [pruneCategoryDir_cons]
    by_cases hdot : n = ['.'] ∨ n = ['.', '.']
    · cases node <;> simp only [regularFilesIn_dot _ _ _ hdot, ih]
    · cases node with
      | noStat => simp only [regularFilesIn_noStat, ih]
      | other => simp only [regularFilesIn_other, ih]
      | reg => simp only [regularFilesIn_reg _ _ hdot, ih]
      | dir o sub => simp only [regularFilesIn_dir, ih]

/-- The scan of a category directory does not depend on what is inside the
directories it lists. -/
theorem readdirLoop_category_prune (icn : List Char → Bool) (uri : STRING) (uv : Bool)
    (cat : STRING) (hcat : cat.length ≠ 0) (es : FsEntries) (st : Caches) :
    readdirLoop icn uri uv cat (pruneCategoryDir es) st = readdirLoop icn uri uv cat es st := by
  rw [readdirLoop_category_insertAll icn uri uv cat hcat,
    readdirLoop_category_insertAll icn uri uv cat hcat, regularFilesIn_prune]

/-- The scan of the root does not depend on what is below the first-level
directories. -/
theorem readdirLoop_root_prune (icn : List Char → Bool) (uri : STRING) (uv : Bool) :
    ∀ (es : FsEntries) (st : Caches), entryNamesNonEmpty es = true →
      readdirLoop icn uri uv [] (pruneRoot es) st = readdirLoop icn uri uv [] es st := by
  intro es
  induction es using FsEntries.induction_on with
  | h0 => intro st _; rfl
  | h1 n node rest ih =>
    intro st hnames
    simp only [entryNamesNonEmpty, Bool.and_eq_true, Bool.not_eq_true', List.isEmpty_eq_false]
      at hnames
    obtain ⟨hn, hrest⟩ := hnames
    have ih' := fun st => ih st hrest
    rw [pruneRoot_cons]
    by_cases hdot : n = ['.'] ∨ n = ['.', '.']
    · cases node <;> simp only [readdirLoop_dot _ _ _ _ _ _ _ _ hdot, ih']
    · cases node with
      | noStat => simp only [readdirLoop_noStat, ih']
      | other => simp only [readdirLoop_other, ih']
      | reg => simp only [readdirLoop_reg _ _ _ _ _ _ _ hdot, ih']
      | dir o sub =>
        have hlen : n.length ≠ 0 := by
          intro h0; exact hn (List.eq_nil_of_length_eq_zero h0)
        simp only [readdirLoop_dir _ _ _ _ _ _ _ _ _ hdot, ih']
        cases o with
        | false => simp only [cacheOneDir_closed]
        | true =>
          simp only [cacheOneDir_open, readdirLoop_category_prune icn uri uv n hlen]

theorem entryNamesNonEmpty_pruneRoot :
    ∀ es : FsEntries, entryNamesNonEmpty (pruneRoot es) = entryNamesNonEmpty es := by
  intro es
  induction es using FsEntries.induction_on with
  | h0 => rfl
  | h1 n node rest ih =>
    rw [pruneRoot_cons]
    cases node <;> simp only [entryNamesNonEmpty, ih]

/-- C15: two trees that agree on the entries of the root and on the entries
directly inside each first-level directory give the same result of the scan:
the same categories and part names, or the same failure, whatever is inside
the directories listed by the first-level directories. -/
theorem cache_depth_cap (icn : List Char → Bool) (uri : STRING) (uv : Bool) (o : Bool)
    (t1 t2 : FsEntries) (hnames : entryNamesNonEmpty t1 = true)
    (hagree : pruneRoot t1 = pruneRoot t2) :
    cache icn uri uv (.dir o t1) = cache icn uri uv (.dir o t2) := by
  have hnames2 : entryNamesNonEmpty t2 = true := by
    rw [← entryNamesNonEmpty_pruneRoot, ← hagree, entryNamesNonEmpty_pruneRoot]
    exact hnames
  unfold cache
  cases o with
  | false => rw [cacheOneDir_closed, cacheOneDir_closed]
  | true =>
    rw [cacheOneDir_open, cacheOneDir_open,
      ← readdirLoop_root_prune icn uri uv t1 _ hnames,
      ← readdirLoop_root_prune icn uri uv t2 _ hnames2, hagree]

/-- Witness of C15: two roots with the file `a.part` and the directory `Cat`,
which holds `b.part` and a directory `deep`; in the first tree `deep` holds
`c.part` and `Cat2`, in the second it cannot be opened. -/
theorem cache_depth_cap_witness :
    cache (fun _ => true) "lib".toList false
        (.dir true (.cons "a.part".toList .reg (.cons "Cat".toList (.dir true
          (.cons "b.part".toList .reg (.cons "deep".toList (.dir true
            (.cons "c.part".toList .reg (.cons "Cat2".toList (.dir true .nil) .nil))) .nil)))
          .nil)))
      = cache (fun _ => true) "lib".toList false
        (.dir true (.cons "a.part".toList .reg (.cons "Cat".toList (.dir true
          (.cons "b.part".toList .reg (.cons "deep".toList (.dir false .nil) .nil)))
          .nil))) :=
  cache_depth_cap (fun _ => true) "lib".toList false true
    (.cons "a.part".toList .reg (.cons "Cat".toList (.dir true
      (.cons "b.part".toList .reg (.cons "deep".toList (.dir true
        (.cons "c.part".toList .reg (.cons "Cat2".toList (.dir true .nil) .nil))) .nil)))
      .nil))
    (.cons "a.part".toList .reg (.cons "Cat".toList (.dir true
      (.cons "b.part".toList .reg (.cons "deep".toList (.dir false .nil) .nil)))
      .nil))
    (by decide) (by rfl)


/-- With versioning, every part name `makePartName` gives ends in `/revN`. -/
theorem makePartName_true_has_rev (e c r : STRING) (h : makePartName true e c = some r) :
    ∃ q N : List Char, N ≠ [] ∧ (∀ x ∈ N, isdigit x = true) ∧ r = q ++ "/rev".toList ++ N := by
  unfold makePartName at h
  cases hs : strrstr e dotPart with
  | none => rw [hs] at h; cases h
  | some cp =>
    rw [hs] at h
    by_cases hpos : 0 < cp
    · simp only [hpos, if_true] at h
      cases hr : endsWithRev (e.drop (cp + 5)) '.' with
      | none => rw [hr] at h; cases h
      | some rev =>
        rw [hr] at h
        simp only [Option.some.injEq] at h
        obtain ⟨p1, N, hd, hne, hN, hrev⟩ := endsWithRev_sound _ '.' rev hr
        have hdrop : e.drop (cp + 5 + rev) = 'r' :: 'e' :: 'v' :: N := by
          rw [← List.drop_drop, hd, hrev, ← List.drop_drop, List.drop_left]
          rfl
        rw [hdrop] at h
        refine ⟨(if c.length ≠ 0 then c ++ ['/'] else []) ++ e.take cp, N, hne, hN, ?_⟩
        rw [← h]
        simp
    · simp [hpos] at h

/-- A name without a `/revN` suffix has no revision for `endsWithRev`. -/
theorem endsWithRev_none_of_no_suffix (p : STRING)
    (hp : ¬ ∃ q N : List Char, N ≠ [] ∧ (∀ x ∈ N, isdigit x = true) ∧
      p = q ++ "/rev".toList ++ N) :
    endsWithRev p '/' = none := by
  cases hk : endsWithRev p '/' with
  | none => rfl
  | some k =>
    obtain ⟨q, N, rfl, hne, hN, _⟩ := endsWithRev_sound p '/' k hk
    exact absurd ⟨q, N, hne, hN, by simp⟩ hp

/-- C16: for every successfully built repository, `GetCategoricalPartNames` of
the empty category returns the whole cache: the part names that `makePartName`
gives the regular files at the root and directly inside the accepted
first-level directories, each once, in strictly ascending `BY_REV` order.  A
root that holds `a.part.rev1` and `a.part.rev2`, with versioning, lists
`a/rev2`, `a/rev1`; a root that holds `Cat/b.part`, without versioning, lists
`Cat/b`; and a root that holds `a.part.rev2147483648` and `a.part.rev1`, with
versioning, lists `a/rev1`, `a/rev2147483648`, in the order of `BY_REV`, for
which the revision `2147483648` is the `int` that `atoi` returns. -/
theorem GetCategoricalPartNames_all (icn : List Char → Bool) (uri : STRING) (uv : Bool)
    (o : Bool) (entries : FsEntries) (st : Caches)
    (hnames : entryNamesNonEmpty entries = true)
    (hbuilt : cache icn uri uv (.dir o entries) = .ok st) :
    GetCategoricalPartNames st.partnames [] = st.partnames ∧
      (GetCategoricalPartNames st.partnames []).Perm (scannedPartNames icn uv entries) ∧
      (GetCategoricalPartNames st.partnames []).Nodup ∧
      (GetCategoricalPartNames st.partnames []).Pairwise (fun a b => BY_REV a b = true) ∧
      (cache (fun _ => true) "lib".toList true
          (.dir true (.cons "a.part.rev1".toList .reg (.cons "a.part.rev2".toList .reg .nil)))
        = .ok ⟨[], ["a/rev2".toList, "a/rev1".toList]⟩ ∧
        GetCategoricalPartNames ["a/rev2".toList, "a/rev1".toList] []
          = ["a/rev2".toList, "a/rev1".toList]) ∧
      (cache (fun _ => true) "lib".toList false
          (.dir true (.cons "Cat".toList (.dir true (.cons "b.part".toList .reg .nil)) .nil))
        = .ok ⟨["Cat".toList], ["Cat/b".toList]⟩ ∧
        GetCategoricalPartNames ["Cat/b".toList] [] = ["Cat/b".toList]) ∧
      (cache (fun _ => true) "lib".toList true
          (.dir true (.cons "a.part.rev2147483648".toList .reg
            (.cons "a.part.rev1".toList .reg .nil)))
        = .ok ⟨[], ["a/rev1".toList, "a/rev2147483648".toList]⟩ ∧
        GetCategoricalPartNames ["a/rev1".toList, "a/rev2147483648".toList] []
          = ["a/rev1".toList, "a/rev2147483648".toList]) := by
  obtain ⟨hasc, hperm⟩ := (cache_spec icn uri uv o entries hnames).1 st hbuilt
  have hall : GetCategoricalPartNames st.partnames [] = st.partnames := rfl
  rw [hall]
  exact ⟨rfl, hperm, hasc.nodup, hasc, ⟨by rfl, by rfl⟩, ⟨by rfl, by rfl⟩, ⟨by rfl, by rfl⟩⟩

/-- Witness of C16: the root that holds `a.part.rev1` and `a.part.rev2`. -/
theorem GetCategoricalPartNames_all_witness :
    GetCategoricalPartNames ["a/rev2".toList, "a/rev1".toList] []
        = ["a/rev2".toList, "a/rev1".toList] ∧
      (GetCategoricalPartNames ["a/rev2".toList, "a/rev1".toList] []).Perm
        (scannedPartNames (fun _ => true) true
          (.cons "a.part.rev1".toList .reg (.cons "a.part.rev2".toList .reg .nil))) :=
  have h := GetCategoricalPartNames_all (fun _ => true) "lib".toList true true
    (.cons "a.part.rev1".toList .reg (.cons "a.part.rev2".toList .reg .nil))
    ⟨[], ["a/rev2".toList, "a/rev1".toList]⟩ (by decide) (by rfl)
  ⟨h.1, h.2.1⟩

/-- C20: in every repository successfully built with versioning enabled, every
cached part name ends in a `/revN` suffix, and `ReadPart` without a revision
argument fails with the part-not-found error on every name that has no `/revN`
suffix; so does `ReadPart` of `a` when the cache holds `a/rev2` and `a/rev1`. -/
theorem versioned_bare_name_not_found (icn : List Char → Bool) (uri : STRING) (o : Bool)
    (entries : FsEntries) (st : Caches) (hnames : entryNamesNonEmpty entries = true)
    (hbuilt : cache icn uri true (.dir o entries) = .ok st) :
    (∀ y ∈ st.partnames, ∃ q N : List Char, N ≠ [] ∧ (∀ x ∈ N, isdigit x = true) ∧
        y = q ++ "/rev".toList ++ N) ∧
      (∀ (files : Files) (rb : List Char) (res p : STRING),
        (¬ ∃ q N : List Char, N ≠ [] ∧ (∀ x ∈ N, isdigit x = true) ∧
          p = q ++ "/rev".toList ++ N) →
        ReadPart files uri st.partnames rb res p [] = ⟨some (.notFound p), res, rb⟩) ∧
      (ReadPart (fun _ => none) "lib".toList ["a/rev2".toList, "a/rev1".toList] [] []
        "a".toList []).thrown = some (.notFound "a".toList) := by
  obtain ⟨hasc, hperm⟩ := (cache_spec icn uri true o entries hnames).1 st hbuilt
  have hrev : ∀ y ∈ st.partnames, ∃ q N : List Char, N ≠ [] ∧ (∀ x ∈ N, isdigit x = true) ∧
      y = q ++ "/rev".toList ++ N := by
    intro y hy
    have hy' := hperm.subset hy
    unfold scannedPartNames at hy'
    obtain ⟨f, _, hf⟩ := List.mem_filterMap.1 hy'
    exact makePartName_true_has_rev f.2 f.1 y hf
  refine ⟨hrev, ?_, by decide⟩
  intro files rb res p hp
  have hfind : setFind BY_REV (if ([] : STRING).length ≠ 0 then p ++ (['/'] ++ []) else p)
      st.partnames = none := by
    simp only [List.length_nil, ne_eq, not_true_eq_false, if_false]
    rw [setFind_BY_REV_none_iff p st.partnames hasc]
    rintro ⟨y, hy, hsame⟩
    rcases hsame with rfl | ⟨r, N1, N2, _, hne2, _, hN2, _, h2, _⟩
    · exact hp (hrev y hy)
    · exact hp ⟨r, N2, hne2, hN2, h2⟩
  rw [ReadPart_not_found files uri st.partnames rb res p [] hfind]
  rfl

/-- Witness of C20: in the repository built from the root that holds
`a.part.rev1` and `a.part.rev2`, `ReadPart` of `a` fails with the
part-not-found error. -/
theorem versioned_bare_name_not_found_witness :
    ReadPart (fun _ => none) "lib".toList ["a/rev2".toList, "a/rev1".toList] [] []
        "a".toList []
      = ⟨some (.notFound "a".toList), [], []⟩ :=
  (versioned_bare_name_not_found (fun _ => true) "lib".toList true
    (.cons "a.part.rev1".toList .reg (.cons "a.part.rev2".toList .reg .nil))
    ⟨[], ["a/rev2".toList, "a/rev1".toList]⟩ (by decide) (by rfl)).2.1
    (fun _ => none) [] [] "a".toList
    (by
      rintro ⟨q, N, _, _, h⟩
      have := congrArg List.length h
      simp at this
      omega)

/-! ## The error of a failing scan -/

/-- A failing sequence of insertions reports a part name as already
encountered. -/
theorem insertAll_error_kind (names : List STRING) :
    ∀ (l : PART_CACHE) (e : IO_ERROR), insertAll names l = .error e →
      ∃ p, e = .alreadyEncountered p := by
  induction names with
  | nil => intro l e h; cases h
  | cons p ps ih =>
    intro l e h
    simp only [insertAll] at h
    cases hi : setInsert BY_REV p l with
    | none =>
      rw [hi] at h
      simp only [Except.error.injEq] at h
      exact ⟨p, h.symm⟩
    | some l2 =>
      rw [hi] at h
      exact ih l2 e h

theorem firstLevelDirsOpen_dot (icn : List Char → Bool) (n : List Char) (node : FsNode)
    (rest : FsEntries) (hdot : n = ['.'] ∨ n = ['.', '.']) :
    firstLevelDirsOpen icn (.cons n node rest) = firstLevelDirsOpen icn rest := by
  rw [firstLevelDirsOpen.eq_def]
  simp only [if_pos hdot]

theorem firstLevelDirsOpen_noStat (icn : List Char → Bool) (n : List Char) (rest : FsEntries) :
    firstLevelDirsOpen icn (.cons n .noStat rest) = firstLevelDirsOpen icn rest := by
  rw [firstLevelDirsOpen.eq_def]
  simp only [ite_self]

theorem firstLevelDirsOpen_reg (icn : List Char → Bool) (n : List Char) (rest : FsEntries) :
    firstLevelDirsOpen icn (.cons n .reg rest) = firstLevelDirsOpen icn rest := by
  rw [firstLevelDirsOpen.eq_def]
  simp only [ite_self]

theorem firstLevelDirsOpen_other (icn : List Char → Bool) (n : List Char) (rest : FsEntries) :
    firstLevelDirsOpen icn (.cons n .other rest) = firstLevelDirsOpen icn rest := by
  rw [firstLevelDirsOpen.eq_def]
  simp only [ite_self]

theorem firstLevelDirsOpen_dir_open (icn : List Char → Bool) (n : List Char)
    (sub rest : FsEntries) :
    firstLevelDirsOpen icn (.cons n (.dir true sub) rest) = firstLevelDirsOpen icn rest := by
  rw [firstLevelDirsOpen.eq_def]
  simp only [ite_self]

theorem firstLevelDirsOpen_dir_closed (icn : List Char → Bool) (n : List Char)
    (sub rest : FsEntries) (hdot : ¬ (n = ['.'] ∨ n = ['.', '.'])) :
    firstLevelDirsOpen icn (.cons n (.dir false sub) rest)
      = (!icn n && firstLevelDirsOpen icn rest) := by
  rw [firstLevelDirsOpen.eq_def]
  simp only [if_neg hdot]

/-- When every first-level directory that the scan opens can be opened, the
scan of the root is the insertion of the part names of the scanned files, in
scan order. -/
theorem readdirLoop_root_insertAll_open (icn : List Char → Bool) (uri : STRING) (uv : Bool) :
    ∀ (es : FsEntries) (st : Caches), entryNamesNonEmpty es = true →
      firstLevelDirsOpen icn es = true →
      ∃ cats, readdirLoop icn uri uv [] es st
        = match insertAll (scannedPartNames icn uv es) st.partnames with
          | .ok l => .ok ⟨cats, l⟩
          | .error e => .error e := by
  intro es
  induction es using FsEntries.induction_on with
  | h0 =>
    intro st _ _
    refine ⟨st.categories, ?_⟩
    rw [readdirLoop_nil]
    simp [scannedPartNames, scannedFiles, insertAll]
  | h1 n node rest ih =>
    intro st hnames hopen
    simp only [entryNamesNonEmpty, Bool.and_eq_true, Bool.not_eq_true', List.isEmpty_eq_false]
      at hnames
    obtain ⟨hn, hrest⟩ := hnames
    have ih' := fun st h => ih st hrest h
    unfold scannedPartNames at ih' ⊢
    by_cases hdot : n = ['.'] ∨ n = ['.', '.']
    · rw [firstLevelDirsOpen_dot _ _ _ _ hdot] at hopen
      rw [readdirLoop_dot _ _ _ _ _ _ _ _ hdot, scannedFiles_dot _ _ _ _ hdot]
      exact ih' st hopen
    · cases node with
      | noStat =>
        rw [firstLevelDirsOpen_noStat] at hopen
        rw [readdirLoop_noStat, scannedFiles_noStat]
        exact ih' st hopen
      | other =>
        rw [firstLevelDirsOpen_other] at hopen
        rw [readdirLoop_other, scannedFiles_other]
        exact ih' st hopen
      | reg =>
        rw [firstLevelDirsOpen_reg] at hopen
        rw [readdirLoop_reg _ _ _ _ _ _ _ hdot, scannedFiles_reg _ _ _ hdot]
        cases hm : makePartName uv n [] with
        | none =>
          simp only [List.filterMap_cons, hm]
          exact ih' st hopen
        | some pn =>
          simp only [List.filterMap_cons, hm, insertAll]
          cases hi : setInsert BY_REV pn st.partnames with
          | none => exact ⟨st.categories, rfl⟩
          | some l => exact ih' { st with partnames := l } hopen
      | dir o sub =>
        rw [readdirLoop_dir _ _ _ _ _ _ _ _ _ hdot]
        by_cases hic : icn n = true
        · have hc : ([] : STRING).length = 0 ∧ icn n = true := ⟨rfl, hic⟩
          rw [if_pos hc]
          cases o with
          | false =>
            rw [firstLevelDirsOpen_dir_closed _ _ _ _ hdot, hic] at hopen
            simp at hopen
          | true =>
            rw [firstLevelDirsOpen_dir_open] at hopen
            have hlen : n.length ≠ 0 := by
              intro h0; exact hn (List.eq_nil_of_length_eq_zero h0)
            have hsub : ((regularFilesIn sub).map (fun x => (n, x))).filterMap
                (fun f : STRING × List Char => makePartName uv f.2 f.1)
                = (regularFilesIn sub).filterMap (fun x => makePartName uv x n) := by
              rw [List.filterMap_map]; rfl
            rw [cacheOneDir_open, scannedFiles_dir_open _ _ _ _ hdot, if_pos hic,
              List.filterMap_append, hsub, insertAll_append,
              readdirLoop_category_insertAll icn uri uv n hlen sub]
            cases hi : insertAll ((regularFilesIn sub).filterMap (fun x => makePartName uv x n))
                st.partnames with
            | error e => exact ⟨st.categories, rfl⟩
            | ok l =>
              exact ih' ⟨(setInsert stringLess n st.categories).getD st.categories, l⟩ hopen
        · have hc : ¬ (([] : STRING).length = 0 ∧ icn n = true) := fun h => hic h.2
          rw [if_neg hc]
          cases o with
          | false =>
            rw [firstLevelDirsOpen_dir_closed _ _ _ _ hdot] at hopen
            simp only [Bool.and_eq_true] at hopen
            rw [scannedFiles_dir_closed]
            exact ih' st hopen.2
          | true =>
            rw [firstLevelDirsOpen_dir_open] at hopen
            rw [scannedFiles_dir_open _ _ _ _ hdot, if_neg hic]
            exact ih' st hopen

/-- A scan fails on a directory only when the root or a first-level directory
that it opens cannot be opened. -/
theorem cache_scanningDirectory (icn : List Char → Bool) (uri : STRING) (uv : Bool)
    (o : Bool) (entries : FsEntries) (hnames : entryNamesNonEmpty entries = true)
    (d : STRING) (h : cache icn uri uv (.dir o entries) = .error (.scanningDirectory d)) :
    o = false ∨ firstLevelDirsOpen icn entries = false := by
  cases o with
  | false => exact Or.inl rfl
  | true =>
    right
    cases hopen : firstLevelDirsOpen icn entries with
    | false => rfl
    | true =>
      unfold cache at h
      rw [cacheOneDir_open] at h
      obtain ⟨c, hc⟩ := readdirLoop_root_insertAll_open icn uri uv entries ⟨[], []⟩ hnames hopen
      rw [hc] at h
      cases hi : insertAll (scannedPartNames icn uv entries) [] with
      | ok l =>
        have : insertAll (scannedPartNames icn uv entries) (Caches.partnames ⟨[], []⟩)
            = .ok l := hi
        rw [this] at h; cases h
      | error e =>
        have h2 : insertAll (scannedPartNames icn uv entries) (Caches.partnames ⟨[], []⟩)
            = .error e := hi
        rw [h2] at h
        simp only [Except.error.injEq] at h
        obtain ⟨p, hp⟩ := insertAll_error_kind _ _ _ hi
        rw [hp] at h
        cases h


theorem FsEntries.append_cons (n : List Char) (node : FsNode) (rest ys : FsEntries) :
    FsEntries.append (.cons n node rest) ys = .cons n node (FsEntries.append rest ys) := by
  rw [FsEntries.append.eq_def]

theorem FsEntries.append_nil_left (ys : FsEntries) : FsEntries.append .nil ys = ys := by
  rw [FsEntries.append.eq_def]

/-- The loop over a listing followed by another is the loop over the first,
then, when that one does not throw, the loop over the second. -/
theorem readdirLoop_append (icn : List Char → Bool) (uri : STRING) (uv : Bool) (cat : STRING)
    (ys : FsEntries) :
    ∀ (es : FsEntries) (st : Caches),
      readdirLoop icn uri uv cat (FsEntries.append es ys) st
        = match readdirLoop icn uri uv cat es st with
          | .ok st1 => readdirLoop icn uri uv cat ys st1
          | .error e => .error e := by
  intro es
  induction es using FsEntries.induction_on with
  | h0 =>
    intro st
    rw [FsEntries.append_nil_left, readdirLoop_nil]
  | h1 n node rest ih =>
    intro st
    rw [FsEntries.append_cons]
    by_cases hdot : n = ['.'] ∨ n = ['.', '.']
    · rw [readdirLoop_dot _ _ _ _ _ _ _ _ hdot, readdirLoop_dot _ _ _ _ _ _ _ _ hdot]
      exact ih st
    · cases node with
      | noStat =>
        rw [readdirLoop_noStat, readdirLoop_noStat]
        exact ih st
      | other =>
        rw [readdirLoop_other, readdirLoop_other]
        exact ih st
      | reg =>
        rw [readdirLoop_reg _ _ _ _ _ _ _ hdot, readdirLoop_reg _ _ _ _ _ _ _ hdot]
        cases hm : makePartName uv n cat with
        | none => exact ih st
        | some pn =>
          simp only
          cases hi : setInsert BY_REV pn st.partnames with
          | none => rfl
          | some l => exact ih { st with partnames := l }
      | dir o sub =>
        rw [readdirLoop_dir _ _ _ _ _ _ _ _ _ hdot, readdirLoop_dir _ _ _ _ _ _ _ _ _ hdot]
        by_cases hc : cat.length = 0 ∧ icn n = true
        · rw [if_pos hc, if_pos hc]
          cases hr : cacheOneDir icn uri uv n (.dir o sub)
              ⟨(setInsert stringLess n st.categories).getD st.categories, st.partnames⟩ with
          | error e => rfl
          | ok st1 => exact ih st1
        · rw [if_neg hc, if_neg hc]
          exact ih st

theorem entryNamesNonEmpty_append (ys : FsEntries) :
    ∀ es : FsEntries, entryNamesNonEmpty (FsEntries.append es ys)
      = (entryNamesNonEmpty es && entryNamesNonEmpty ys) := by
  intro es
  induction es using FsEntries.induction_on with
  | h0 => rw [FsEntries.append_nil_left]; rfl
  | h1 n node rest ih =>
    rw [FsEntries.append_cons]
    simp only [entryNamesNonEmpty, ih, Bool.and_assoc]

/-- The files scanned in a listing followed by another are those scanned in the
first, then those scanned in the second. -/
theorem scannedFiles_append (icn : List Char → Bool) (ys : FsEntries) :
    ∀ es : FsEntries, scannedFiles icn (FsEntries.append es ys)
      = scannedFiles icn es ++ scannedFiles icn ys := by
  intro es
  induction es using FsEntries.induction_on with
  | h0 => rw [FsEntries.append_nil_left]; rfl
  | h1 n node rest ih =>
    rw [FsEntries.append_cons]
    by_cases hdot : n = ['.'] ∨ n = ['.', '.']
    · rw [scannedFiles_dot _ _ _ _ hdot, scannedFiles_dot _ _ _ _ hdot, ih]
    · cases node with
      | noStat => rw [scannedFiles_noStat, scannedFiles_noStat, ih]
      | other => rw [scannedFiles_other, scannedFiles_other, ih]
      | reg =>
        rw [scannedFiles_reg _ _ _ hdot, scannedFiles_reg _ _ _ hdot, ih]
        rfl
      | dir o sub =>
        cases o with
        | false => rw [scannedFiles_dir_closed, scannedFiles_dir_closed, ih]
        | true =>
          rw [scannedFiles_dir_open _ _ _ _ hdot, scannedFiles_dir_open _ _ _ _ hdot, ih]
          by_cases hic : icn n = true
          · rw [if_pos hic, if_pos hic, List.append_assoc]
          · rw [if_neg hic, if_neg hic]

/-- When two different files scanned in the first part of the root listing are
given the same part name, and every first-level directory opened in that part
can be opened, the scan fails with the error that a part name has already been
encountered. -/
theorem cache_duplicate_first (icn : List Char → Bool) (uri : STRING) (uv : Bool)
    (first rest : FsEntries) (hnames : entryNamesNonEmpty first = true)
    (hopen : firstLevelDirsOpen icn first = true)
    (i j : Nat) (f1 f2 : STRING × List Char) (p : STRING) (hij : i ≠ j)
    (h1 : (scannedFiles icn first)[i]? = some f1) (h2 : (scannedFiles icn first)[j]? = some f2)
    (hp1 : makePartName uv f1.2 f1.1 = some p) (hp2 : makePartName uv f2.2 f2.1 = some p) :
    ∃ q, cache icn uri uv (.dir true (FsEntries.append first rest))
      = .error (.alreadyEncountered q) := by
  unfold cache
  rw [cacheOneDir_open, readdirLoop_append]
  obtain ⟨c, hc⟩ := readdirLoop_root_insertAll_open icn uri uv first ⟨[], []⟩ hnames hopen
  rw [hc]
  have hdup : ¬ (scannedPartNames icn uv first).Nodup :=
    not_nodup_filterMap (fun f : STRING × List Char => makePartName uv f.2 f.1)
      (scannedFiles icn first) i j f1 f2 p hij h1 h2 hp1 hp2
  cases hi : insertAll (scannedPartNames icn uv first) [] with
  | ok l =>
    obtain ⟨a, b⟩ := insertAll_ok _ [] l List.Pairwise.nil hi
    rw [List.append_nil] at b
    exact absurd (b.nodup_iff.1 a.nodup) hdup
  | error e =>
    obtain ⟨q, hq⟩ := insertAll_error_kind _ _ _ hi
    rw [hq]
    exact ⟨q, rfl⟩


/-! ## The claim on duplicate part names -/

/-- C8: over a directory tree, when two different regular files that the scan
visits, at the root or directly inside an accepted first-level directory, are
given the same part name by `makePartName`, the construction of the cache
fails: with the error that a part name has already been encountered, or, only
when the root or a first-level directory that the scan opens cannot be opened,
with the error on that directory.  When the two files are met in a first part
of the root listing in which every such directory can be opened, so that no
directory-open error occurs before them, the error is the one that a part name
has already been encountered.  A cache that was built was built from files with
pairwise different part names. -/
theorem cache_fails_on_duplicate_part_name (icn : List Char → Bool) (uri : STRING)
    (uv : Bool) (o : Bool) (entries : FsEntries)
    (hnames : entryNamesNonEmpty entries = true) :
    (∀ (i j : Nat) (f1 f2 : STRING × List Char) (p : STRING), i ≠ j →
      (scannedFiles icn entries)[i]? = some f1 → (scannedFiles icn entries)[j]? = some f2 →
      makePartName uv f1.2 f1.1 = some p → makePartName uv f2.2 f2.1 = some p →
      ∃ e, cache icn uri uv (.dir o entries) = .error e ∧
        ((∃ q, e = .alreadyEncountered q) ∨
          ((∃ d, e = .scanningDirectory d) ∧
            (o = false ∨ firstLevelDirsOpen icn entries = false)))) ∧
    (∀ (first rest : FsEntries) (i j : Nat) (f1 f2 : STRING × List Char) (p : STRING),
      entries = FsEntries.append first rest → o = true →
      firstLevelDirsOpen icn first = true → i ≠ j →
      (scannedFiles icn first)[i]? = some f1 → (scannedFiles icn first)[j]? = some f2 →
      makePartName uv f1.2 f1.1 = some p → makePartName uv f2.2 f2.1 = some p →
      ∃ q, cache icn uri uv (.dir o entries) = .error (.alreadyEncountered q)) ∧
    (∀ st, cache icn uri uv (.dir o entries) = .ok st →
      (scannedPartNames icn uv entries).Nodup) := by
  obtain ⟨hok, herr⟩ := cache_spec icn uri uv o entries hnames
  have hnd : ∀ st, cache icn uri uv (.dir o entries) = .ok st →
      (scannedPartNames icn uv entries).Nodup := by
    intro st h
    obtain ⟨a, b⟩ := hok st h
    exact b.nodup_iff.1 a.nodup
  refine ⟨?_, ?_, hnd⟩
  · intro i j f1 f2 p hij h1 h2 hp1 hp2
    cases hc : cache icn uri uv (.dir o entries) with
    | ok st =>
      have hdup : ¬ (scannedPartNames icn uv entries).Nodup :=
        not_nodup_filterMap (fun f : STRING × List Char => makePartName uv f.2 f.1)
          (scannedFiles icn entries) i j f1 f2 p hij h1 h2 hp1 hp2
      exact absurd (hnd st hc) hdup
    | error e =>
      refine ⟨e, rfl, ?_⟩
      rcases herr e hc with hq | ⟨d, hd⟩
      · exact Or.inl hq
      · rw [hd] at hc
        exact Or.inr ⟨⟨d, hd⟩, cache_scanningDirectory icn uri uv o entries hnames d hc⟩
  · intro first rest i j f1 f2 p he ho hopen hij h1 h2 hp1 hp2
    subst he
    subst ho
    rw [entryNamesNonEmpty_append, Bool.and_eq_true] at hnames
    exact cache_duplicate_first icn uri uv first rest hnames.1 hopen i j f1 f2 p hij h1 h2
      hp1 hp2

/-- Witness of C8: with versioning, a root that lists the regular files
`a.part.rev1` and `a.partX.rev1`, both named `a/rev1`, and after them a
directory `Cat` that cannot be opened: the construction fails with the error
that a part name has already been encountered. -/
theorem cache_fails_on_duplicate_part_name_witness :
    ∃ q, cache (fun _ => true) "lib".toList true
        (.dir true (.cons "a.part.rev1".toList .reg (.cons "a.partX.rev1".toList .reg
          (.cons "Cat".toList (.dir false .nil) .nil))))
      = .error (.alreadyEncountered q) :=
  (cache_fails_on_duplicate_part_name (fun _ => true) "lib".toList true true
    (.cons "a.part.rev1".toList .reg (.cons "a.partX.rev1".toList .reg
      (.cons "Cat".toList (.dir false .nil) .nil)))
    (by decide)).2.1
    (.cons "a.part.rev1".toList .reg (.cons "a.partX.rev1".toList .reg .nil))
    (.cons "Cat".toList (.dir false .nil) .nil)
    0 1 ([], "a.part.rev1".toList) ([], "a.partX.rev1".toList) "a/rev1".toList
    (by rfl) rfl (by decide) (by decide) (by decide) (by decide) (by decide) (by decide)

end SCH
